import Mathlib

/-!
Verification of the federated-actor-learning repository.

This file embeds the data model and operations of the repository
(`src/fl/crdt.py`, `src/fl/model.py`, `src/fl/provider.py`,
`src/fl/gossip_peer.py`, `src/actor/supervisor.py`,
`src/actor/actor_system.py`) as Lean definitions and proves or refutes
the specification's claims about them.

Python dictionaries keyed by strings are modelled as functions
`String → Option α` (lookup view); where the code iterates over a
dictionary's items, the iterated collection is modelled as an
association list.  Python ints are `Int`, floats that matter are `ℚ`
(plus an explicit non-finite constructor where `np.isfinite` matters).
-/

namespace FL

/-- `Timestamp` from `src/fl/crdt.py`: `replica_id : str`, `logical_time : int`.
Comparison is by the key `(logical_time, replica_id)` (Python tuple order). -/
structure Timestamp where
  replica_id : String
  logical_time : Int
deriving DecidableEq, Repr

/-- The comparison key `(logical_time, replica_id)` of `Timestamp._key`. -/
def Timestamp.key (t : Timestamp) : Int × String :=
  (t.logical_time, t.replica_id)

/-- `Timestamp.__lt__`: lexicographic comparison of `(logical_time, replica_id)`. -/
def tsLt (a b : Timestamp) : Prop :=
  a.logical_time < b.logical_time ∨
    (a.logical_time = b.logical_time ∧ a.replica_id < b.replica_id)

/-- `Timestamp.__le__`: `<` or equality of keys (keys determine the timestamp). -/
def tsLe (a b : Timestamp) : Prop :=
  tsLt a b ∨ a = b

instance (a b : Timestamp) : Decidable (tsLt a b) :=
  @instDecidableOr _ _ (Int.decLt a.logical_time b.logical_time)
    (@instDecidableAnd _ _ (Int.instDecidableEq a.logical_time b.logical_time)
      (decidable_of_iff (a.replica_id.toList < b.replica_id.toList)
        String.lt_iff_toList_lt.symm))

instance (a b : Timestamp) : Decidable (tsLe a b) :=
  @instDecidableOr _ _ inferInstance (inferInstanceAs (Decidable (a = b)))

theorem tsLt_irrefl (a : Timestamp) : ¬ tsLt a a := by
  rintro (h | ⟨-, h⟩)
  · exact lt_irrefl _ h
  · exact lt_irrefl _ h

theorem tsLt_trans {a b c : Timestamp} (hab : tsLt a b) (hbc : tsLt b c) :
    tsLt a c := by
  rcases hab with h1 | ⟨e1, s1⟩ <;> rcases hbc with h2 | ⟨e2, s2⟩
  · exact Or.inl (lt_trans h1 h2)
  · exact Or.inl (e2 ▸ h1)
  · exact Or.inl (e1 ▸ h2)
  · exact Or.inr ⟨e1.trans e2, lt_trans s1 s2⟩

theorem tsLt_asymm {a b : Timestamp} (hab : tsLt a b) : ¬ tsLt b a := fun hba =>
  tsLt_irrefl a (tsLt_trans hab hba)

theorem ts_trichotomy (a b : Timestamp) : tsLt a b ∨ a = b ∨ tsLt b a := by
  rcases lt_trichotomy a.logical_time b.logical_time with h | h | h
  · exact Or.inl (Or.inl h)
  · rcases lt_trichotomy a.replica_id b.replica_id with hs | hs | hs
    · exact Or.inl (Or.inr ⟨h, hs⟩)
    · refine Or.inr (Or.inl ?_)
      cases a; cases b; simp_all
    · exact Or.inr (Or.inr (Or.inr ⟨h.symm, hs⟩))
  · exact Or.inr (Or.inr (Or.inl h))

theorem tsLe_of_not_lt {a b : Timestamp} (h : ¬ tsLt a b) : tsLe b a := by
  rcases ts_trichotomy a b with h1 | h1 | h1
  · exact absurd h1 h
  · exact Or.inr h1.symm
  · exact Or.inl h1

theorem not_lt_of_tsLe {a b : Timestamp} (h : tsLe a b) : ¬ tsLt b a := by
  rcases h with h | rfl
  · exact tsLt_asymm h
  · exact tsLt_irrefl a

theorem tsLe_refl (a : Timestamp) : tsLe a a := Or.inr rfl

theorem tsLt_of_tsLe_of_tsLt {a b c : Timestamp} (h1 : tsLe a b) (h2 : tsLt b c) :
    tsLt a c := by
  rcases h1 with h1 | rfl
  · exact tsLt_trans h1 h2
  · exact h2

theorem tsLt_of_tsLt_of_tsLe {a b c : Timestamp} (h1 : tsLt a b) (h2 : tsLe b c) :
    tsLt a c := by
  rcases h2 with h2 | rfl
  · exact tsLt_trans h1 h2
  · exact h1

theorem tsLe_trans {a b c : Timestamp} (h1 : tsLe a b) (h2 : tsLe b c) :
    tsLe a c := by
  rcases h1 with h1 | rfl
  · exact Or.inl (tsLt_of_tsLt_of_tsLe h1 h2)
  · exact h2

theorem tsLe_antisymm {a b : Timestamp} (h1 : tsLe a b) (h2 : tsLe b a) :
    a = b := by
  rcases h1 with h1 | rfl
  · exact absurd h1 (not_lt_of_tsLe h2)
  · rfl

theorem tsLe_total (a b : Timestamp) : tsLe a b ∨ tsLe b a := by
  rcases ts_trichotomy a b with h | rfl | h
  · exact Or.inl (Or.inl h)
  · exact Or.inl (tsLe_refl a)
  · exact Or.inr (Or.inl h)

/-!
## Per-key view of `LWWMap`

Every operation of `LWWMap` (`put`, `delete`, `merge` of a single
`put`/`delete` delta, and each per-key step of `merge_state`) touches the
`data` and `tombstones` dictionaries at a single key.  `KState` is the
projection of the map to one key: the optional data entry and the optional
tombstone.  `KOp` enumerates the six per-key operations with their exact
semantics from `src/fl/crdt.py`:

* `lput` / `ldel`  — the local `put` / `delete` bodies (timestamp made explicit);
* `mput` / `mdel`  — `merge` of a `put` / `delete` delta;
* `sput` / `sdel`  — the data-entry / tombstone-entry steps of `merge_state`.
-/

/-- Projection of one key of an `LWWMap`: `(data.get(k), tombstones.get(k))`. -/
abbrev KState (V : Type) := Option (V × Timestamp) × Option Timestamp

/-- The six per-key operations of `LWWMap` (see module comment). -/
inductive KOp (V : Type) where
  | lput (v : V) (ts : Timestamp)
  | ldel (ts : Timestamp)
  | mput (v : V) (ts : Timestamp)
  | mdel (ts : Timestamp)
  | sput (v : V) (ts : Timestamp)
  | sdel (ts : Timestamp)
deriving DecidableEq, Repr

/-- The timestamp carried by a per-key operation. -/
def KOp.ts {V : Type} : KOp V → Timestamp
  | .lput _ ts => ts
  | .ldel ts => ts
  | .mput _ ts => ts
  | .mdel ts => ts
  | .sput _ ts => ts
  | .sdel ts => ts

/-- Whether the operation is a local `put`/`delete` (clock-generated timestamp). -/
def KOp.isLocal {V : Type} : KOp V → Bool
  | .lput _ _ => true
  | .ldel _ => true
  | _ => false

/-- The information content of a per-key operation: which `(value, ts)` put or
which `ts` tombstone it communicates, forgetting how it was observed. -/
inductive KUnit (V : Type) where
  | uput (v : V) (ts : Timestamp)
  | udel (ts : Timestamp)
deriving DecidableEq, Repr

/-- Unit carried by an operation. -/
def KOp.unit {V : Type} : KOp V → KUnit V
  | .lput v ts => .uput v ts
  | .ldel ts => .udel ts
  | .mput v ts => .uput v ts
  | .mdel ts => .udel ts
  | .sput v ts => .uput v ts
  | .sdel ts => .udel ts

/-- One per-key step.  Each branch is the corresponding `LWWMap` method from
`src/fl/crdt.py` restricted to the operation's key. -/
def kstep {V : Type} (s : KState V) (op : KOp V) : KState V :=
  match op with
  | .lput v ts =>
      -- put: data[key] = (value, ts); drop tombstone if tombstones[key] < ts
      (some (v, ts),
        match s.2 with
        | some tt => if tsLt tt ts then none else some tt
        | none => none)
  | .ldel ts =>
      -- delete: tombstones[key] = ts (data entry is left in place)
      (s.1, some ts)
  | .mput v ts =>
      -- merge, 'put' branch
      match s.1 with
      | none =>
          (some (v, ts),
            match s.2 with
            | some tt => if tsLt tt ts then none else some tt
            | none => none)
      | some (v0, ts0) =>
          if tsLt ts0 ts then
            (some (v, ts),
              match s.2 with
              | some tt => if tsLt tt ts then none else some tt
              | none => none)
          else s
  | .mdel ts =>
      -- merge, 'delete' branch
      match s.2 with
      | none =>
          ((match s.1 with
            | some (v0, ts0) => if tsLe ts0 ts then none else some (v0, ts0)
            | none => none), some ts)
      | some tt =>
          if tsLt tt ts then
            ((match s.1 with
              | some (v0, ts0) => if tsLe ts0 ts then none else some (v0, ts0)
              | none => none), some ts)
          else s
  | .sdel ts =>
      -- merge_state, tombstone loop body: update tombstone if strictly newer,
      -- then drop the data entry if the (possibly unchanged) tombstone covers it
      let t' : Option Timestamp :=
        match s.2 with
        | none => some ts
        | some tt => if tsLt tt ts then some ts else some tt
      let d' : Option (V × Timestamp) :=
        match s.1, t' with
        | some (v0, ts0), some tt' => if tsLe ts0 tt' then none else some (v0, ts0)
        | d, _ => d
      (d', t')
  | .sput v ts =>
      -- merge_state, data loop body: skip if shadowed by the tombstone,
      -- else last-writer-wins on the data entry (tombstone untouched)
      match s.2 with
      | some tt =>
          if tsLe ts tt then s
          else
            match s.1 with
            | none => (some (v, ts), s.2)
            | some (v0, ts0) => if tsLt ts0 ts then (some (v, ts), s.2) else s
      | none =>
          match s.1 with
          | none => (some (v, ts), s.2)
          | some (v0, ts0) => if tsLt ts0 ts then (some (v, ts), s.2) else s

/-- Per-key `get` (`LWWMap.get` restricted to one key): the data value,
hidden when a tombstone with `ts ≥` the entry's timestamp exists. -/
def kget {V : Type} (s : KState V) : Option V :=
  match s.1 with
  | none => none
  | some (v, ts) =>
      match s.2 with
      | none => some v
      | some tt => if tsLe ts tt then none else some v

/-- Apply a list of per-key operations in order. -/
def kapply {V : Type} (l : List (KOp V)) (s : KState V) : KState V :=
  l.foldl kstep s

/-- `(v, ts)` is one of the put units observed in `l`. -/
def PutIn {V : Type} (l : List (KOp V)) (v : V) (ts : Timestamp) : Prop :=
  ∃ op ∈ l, op.unit = KUnit.uput v ts

/-- `ts` is one of the tombstone units observed in `l`. -/
def DelIn {V : Type} (l : List (KOp V)) (ts : Timestamp) : Prop :=
  ∃ op ∈ l, op.unit = KUnit.udel ts

/-- `ts` is the greatest put timestamp observed in `l`. -/
def MaxPut {V : Type} (l : List (KOp V)) (ts : Timestamp) : Prop :=
  (∃ v, PutIn l v ts) ∧ ∀ v' ts', PutIn l v' ts' → tsLe ts' ts

/-- `ts` is the greatest tombstone timestamp observed in `l`. -/
def MaxDel {V : Type} (l : List (KOp V)) (ts : Timestamp) : Prop :=
  DelIn l ts ∧ ∀ ts', DelIn l ts' → tsLe ts' ts

/-- Reachability invariant tying a per-key state to the set of observed units.
The four cases:  nothing observed;  tombstone only (it is the greatest one and
dominates every put);  visible entry (it is the greatest put and beats every
tombstone), with or without a residual tombstone;  shadowed entry (the
tombstone is the greatest one and dominates every put). -/
def INV {V : Type} (l : List (KOp V)) (s : KState V) : Prop :=
  match s with
  | (none, none) => (∀ v ts, ¬ PutIn l v ts) ∧ (∀ ts, ¬ DelIn l ts)
  | (none, some tt) => MaxDel l tt ∧ ∀ v ts, PutIn l v ts → tsLt ts tt
  | (some (v, ts), none) =>
      PutIn l v ts ∧ MaxPut l ts ∧ ∀ ts', DelIn l ts' → tsLt ts' ts
  | (some (v, ts), some tt) =>
      PutIn l v ts ∧ DelIn l tt ∧
        ((MaxPut l ts ∧ ∀ ts', DelIn l ts' → tsLt ts' ts) ∨
         (MaxDel l tt ∧ ∀ v' ts', PutIn l v' ts' → tsLt ts' tt))

/-- Distinctness of timestamps across the observed units: equal-timestamp puts
agree on the value, and no put shares a timestamp with a tombstone.  On real
replicas this holds because every timestamp contains the issuing replica's id
and a strictly increasing clock value. -/
def Hygiene {V : Type} (L : List (KOp V)) : Prop :=
  (∀ v1 ts1 v2 ts2, PutIn L v1 ts1 → PutIn L v2 ts2 → ts1 = ts2 → v1 = v2) ∧
  (∀ v ts ts', PutIn L v ts → DelIn L ts' → ts ≠ ts')

/-- Local operations draw their timestamp from the replica's clock, which
dominates every previously observed logical time (`_next_ts`, and the
`max(clock, ts.logical_time) + 1` updates in `merge`/`merge_state`).
Projected per key: every local operation's timestamp is strictly greater than
the timestamp of every operation before it in the replica's history. -/
def LocalFresh {V : Type} (l : List (KOp V)) : Prop :=
  l.Pairwise fun a b => b.isLocal = true → tsLt a.ts b.ts

theorem putIn_append {V : Type} {l : List (KOp V)} {x : KOp V} {v : V}
    {ts : Timestamp} :
    PutIn (l ++ [x]) v ts ↔ PutIn l v ts ∨ x.unit = KUnit.uput v ts := by
  constructor
  · rintro ⟨op, hop, hu⟩
    rcases List.mem_append.mp hop with h | h
    · exact Or.inl ⟨op, h, hu⟩
    · rcases List.mem_singleton.mp h with rfl
      exact Or.inr hu
  · rintro (⟨op, hop, hu⟩ | hu)
    · exact ⟨op, List.mem_append.mpr (Or.inl hop), hu⟩
    · exact ⟨x, List.mem_append.mpr (Or.inr (List.mem_singleton.mpr rfl)), hu⟩

theorem delIn_append {V : Type} {l : List (KOp V)} {x : KOp V}
    {ts : Timestamp} :
    DelIn (l ++ [x]) ts ↔ DelIn l ts ∨ x.unit = KUnit.udel ts := by
  constructor
  · rintro ⟨op, hop, hu⟩
    rcases List.mem_append.mp hop with h | h
    · exact Or.inl ⟨op, h, hu⟩
    · rcases List.mem_singleton.mp h with rfl
      exact Or.inr hu
  · rintro (⟨op, hop, hu⟩ | hu)
    · exact ⟨op, List.mem_append.mpr (Or.inl hop), hu⟩
    · exact ⟨x, List.mem_append.mpr (Or.inr (List.mem_singleton.mpr rfl)), hu⟩

theorem putIn_mono {V : Type} {l L : List (KOp V)} (hsub : ∀ op ∈ l, op ∈ L)
    {v : V} {ts : Timestamp} (h : PutIn l v ts) : PutIn L v ts := by
  obtain ⟨op, hop, hu⟩ := h
  exact ⟨op, hsub op hop, hu⟩

theorem delIn_mono {V : Type} {l L : List (KOp V)} (hsub : ∀ op ∈ l, op ∈ L)
    {ts : Timestamp} (h : DelIn l ts) : DelIn L ts := by
  obtain ⟨op, hop, hu⟩ := h
  exact ⟨op, hsub op hop, hu⟩

theorem KOp.ts_of_unit_put {V : Type} {op : KOp V} {v : V} {ts : Timestamp}
    (h : op.unit = KUnit.uput v ts) : op.ts = ts := by
  cases op <;> simp [KOp.unit] at h <;> simp [KOp.ts, h]

theorem KOp.ts_of_unit_del {V : Type} {op : KOp V} {ts : Timestamp}
    (h : op.unit = KUnit.udel ts) : op.ts = ts := by
  cases op <;> simp [KOp.unit] at h <;> simp [KOp.ts, h]

theorem tsLt_of_tsLe_ne {a b : Timestamp} (h : tsLe a b) (hne : a ≠ b) :
    tsLt a b := by
  rcases h with h | rfl
  · exact h
  · exact absurd rfl hne

theorem tsLt_of_not_tsLe {a b : Timestamp} (h : ¬ tsLe a b) : tsLt b a := by
  rcases ts_trichotomy a b with h1 | h1 | h1
  · exact absurd (Or.inl h1) h
  · exact absurd (Or.inr h1) h
  · exact h1

theorem fresh_putIn {V : Type} {l : List (KOp V)} {tsx : Timestamp}
    (hfresh : ∀ op ∈ l, tsLt op.ts tsx) {v : V} {ts : Timestamp}
    (h : PutIn l v ts) : tsLt ts tsx := by
  obtain ⟨op, hop, hu⟩ := h
  exact KOp.ts_of_unit_put hu ▸ hfresh op hop

theorem fresh_delIn {V : Type} {l : List (KOp V)} {tsx : Timestamp}
    (hfresh : ∀ op ∈ l, tsLt op.ts tsx) {ts : Timestamp}
    (h : DelIn l ts) : tsLt ts tsx := by
  obtain ⟨op, hop, hu⟩ := h
  exact KOp.ts_of_unit_del hu ▸ hfresh op hop

/-- From the invariant, a present data entry was observed as a put. -/
theorem inv_putIn {V : Type} {l : List (KOp V)} {v : V} {ts : Timestamp}
    {t : Option Timestamp} (h : INV l (some (v, ts), t)) : PutIn l v ts := by
  cases t <;> exact h.1

/-- From the invariant, a present tombstone was observed as a delete. -/
theorem inv_delIn {V : Type} {l : List (KOp V)} {d : Option (V × Timestamp)}
    {tt : Timestamp} (h : INV l (d, some tt)) : DelIn l tt := by
  rcases d with - | ⟨v, ts⟩
  · exact h.1.1
  · exact h.2.1

theorem putIn_append_unit_put {V : Type} {l : List (KOp V)} {x : KOp V}
    {v : V} {ts : Timestamp} (hu : x.unit = KUnit.uput v ts)
    {v' : V} {ts' : Timestamp} :
    PutIn (l ++ [x]) v' ts' ↔ PutIn l v' ts' ∨ (v = v' ∧ ts = ts') := by
  rw [putIn_append, hu]
  simp

theorem delIn_append_unit_put {V : Type} {l : List (KOp V)} {x : KOp V}
    {v : V} {ts : Timestamp} (hu : x.unit = KUnit.uput v ts) {ts' : Timestamp} :
    DelIn (l ++ [x]) ts' ↔ DelIn l ts' := by
  rw [delIn_append, hu]
  simp

theorem putIn_append_unit_del {V : Type} {l : List (KOp V)} {x : KOp V}
    {ts : Timestamp} (hu : x.unit = KUnit.udel ts) {v' : V} {ts' : Timestamp} :
    PutIn (l ++ [x]) v' ts' ↔ PutIn l v' ts' := by
  rw [putIn_append, hu]
  simp

theorem delIn_append_unit_del {V : Type} {l : List (KOp V)} {x : KOp V}
    {ts : Timestamp} (hu : x.unit = KUnit.udel ts) {ts' : Timestamp} :
    DelIn (l ++ [x]) ts' ↔ DelIn l ts' ∨ ts = ts' := by
  rw [delIn_append, hu]
  simp

theorem maxPut_append_del {V : Type} {l : List (KOp V)} {x : KOp V}
    {ts tsm : Timestamp} (hu : x.unit = KUnit.udel ts)
    (h : MaxPut l tsm) : MaxPut (l ++ [x]) tsm := by
  refine ⟨?_, ?_⟩
  · obtain ⟨v, hv⟩ := h.1
    exact ⟨v, (putIn_append_unit_del hu).mpr hv⟩
  · intro v' ts' hp
    exact h.2 v' ts' ((putIn_append_unit_del hu).mp hp)

theorem maxDel_append_put {V : Type} {l : List (KOp V)} {x : KOp V}
    {v : V} {ts tsm : Timestamp} (hu : x.unit = KUnit.uput v ts)
    (h : MaxDel l tsm) : MaxDel (l ++ [x]) tsm := by
  refine ⟨(delIn_append_unit_put hu).mpr h.1, ?_⟩
  intro ts' hd
  exact h.2 ts' ((delIn_append_unit_put hu).mp hd)

theorem maxPut_append_put_le {V : Type} {l : List (KOp V)} {x : KOp V}
    {v : V} {ts tsm : Timestamp} (hu : x.unit = KUnit.uput v ts)
    (h : MaxPut l tsm) (hle : tsLe ts tsm) : MaxPut (l ++ [x]) tsm := by
  refine ⟨?_, ?_⟩
  · obtain ⟨w, hw⟩ := h.1
    exact ⟨w, (putIn_append_unit_put hu).mpr (Or.inl hw)⟩
  · intro v' ts' hp
    rcases (putIn_append_unit_put hu).mp hp with hp | ⟨-, rfl⟩
    · exact h.2 v' ts' hp
    · exact hle

theorem maxPut_append_put_new {V : Type} {l : List (KOp V)} {x : KOp V}
    {v : V} {ts : Timestamp} (hu : x.unit = KUnit.uput v ts)
    (hall : ∀ v' ts', PutIn l v' ts' → tsLe ts' ts) : MaxPut (l ++ [x]) ts := by
  refine ⟨⟨v, (putIn_append_unit_put hu).mpr (Or.inr ⟨rfl, rfl⟩)⟩, ?_⟩
  intro v' ts' hp
  rcases (putIn_append_unit_put hu).mp hp with hp | ⟨-, rfl⟩
  · exact hall v' ts' hp
  · exact tsLe_refl ts

theorem maxDel_append_del_le {V : Type} {l : List (KOp V)} {x : KOp V}
    {ts tsm : Timestamp} (hu : x.unit = KUnit.udel ts)
    (h : MaxDel l tsm) (hle : tsLe ts tsm) : MaxDel (l ++ [x]) tsm := by
  refine ⟨(delIn_append_unit_del hu).mpr (Or.inl h.1), ?_⟩
  intro ts' hd
  rcases (delIn_append_unit_del hu).mp hd with hd | rfl
  · exact h.2 ts' hd
  · exact hle

theorem maxDel_append_del_new {V : Type} {l : List (KOp V)} {x : KOp V}
    {ts : Timestamp} (hu : x.unit = KUnit.udel ts)
    (hall : ∀ ts', DelIn l ts' → tsLe ts' ts) : MaxDel (l ++ [x]) ts := by
  refine ⟨(delIn_append_unit_del hu).mpr (Or.inr rfl), ?_⟩
  intro ts' hd
  rcases (delIn_append_unit_del hu).mp hd with hd | rfl
  · exact hall ts' hd
  · exact tsLe_refl ts

theorem delsLt_append_put {V : Type} {l : List (KOp V)} {x : KOp V}
    {v : V} {ts b : Timestamp} (hu : x.unit = KUnit.uput v ts)
    (h : ∀ ts', DelIn l ts' → tsLt ts' b) :
    ∀ ts', DelIn (l ++ [x]) ts' → tsLt ts' b := by
  intro ts' hd
  exact h ts' ((delIn_append_unit_put hu).mp hd)

theorem delsLt_append_del {V : Type} {l : List (KOp V)} {x : KOp V}
    {ts b : Timestamp} (hu : x.unit = KUnit.udel ts)
    (h : ∀ ts', DelIn l ts' → tsLt ts' b) (hnew : tsLt ts b) :
    ∀ ts', DelIn (l ++ [x]) ts' → tsLt ts' b := by
  intro ts' hd
  rcases (delIn_append_unit_del hu).mp hd with hd | rfl
  · exact h ts' hd
  · exact hnew

theorem putsLt_append_del {V : Type} {l : List (KOp V)} {x : KOp V}
    {ts b : Timestamp} (hu : x.unit = KUnit.udel ts)
    (h : ∀ v' ts', PutIn l v' ts' → tsLt ts' b) :
    ∀ v' ts', PutIn (l ++ [x]) v' ts' → tsLt ts' b := by
  intro v' ts' hp
  exact h v' ts' ((putIn_append_unit_del hu).mp hp)

theorem putsLt_append_put {V : Type} {l : List (KOp V)} {x : KOp V}
    {v : V} {ts b : Timestamp} (hu : x.unit = KUnit.uput v ts)
    (h : ∀ v' ts', PutIn l v' ts' → tsLt ts' b) (hnew : tsLt ts b) :
    ∀ v' ts', PutIn (l ++ [x]) v' ts' → tsLt ts' b := by
  intro v' ts' hp
  rcases (putIn_append_unit_put hu).mp hp with hp | ⟨-, rfl⟩
  · exact h v' ts' hp
  · exact hnew

theorem kstep_inv_lput {V : Type} {l : List (KOp V)} {v : V} {ts : Timestamp}
    {s : KState V} (hfresh : ∀ op ∈ l, tsLt op.ts ts) (hinv : INV l s) :
    INV (l ++ [KOp.lput v ts]) (kstep s (KOp.lput v ts)) := by
  obtain ⟨d, t⟩ := s
  have hstate : kstep (d, t) (KOp.lput v ts) = (some (v, ts), none) := by
    rcases t with - | tt
    · rfl
    · have htt : tsLt tt ts := fresh_delIn hfresh (inv_delIn hinv)
      simp [kstep, htt]
  rw [hstate]
  refine ⟨putIn_append.mpr (Or.inr rfl), ⟨⟨v, putIn_append.mpr (Or.inr rfl)⟩, ?_⟩, ?_⟩
  · intro v' ts' hp
    rcases putIn_append.mp hp with h | h
    · exact Or.inl (fresh_putIn hfresh h)
    · simp [KOp.unit] at h
      exact Or.inr h.2.symm
  · intro ts' hdel
    rcases delIn_append.mp hdel with h | h
    · exact fresh_delIn hfresh h
    · simp [KOp.unit] at h

theorem kstep_inv_ldel {V : Type} {l : List (KOp V)} {ts : Timestamp}
    {s : KState V} (hfresh : ∀ op ∈ l, tsLt op.ts ts) (hinv : INV l s) :
    INV (l ++ [KOp.ldel ts]) (kstep s (KOp.ldel ts)) := by
  obtain ⟨d, t⟩ := s
  have hstate : kstep (d, t) (KOp.ldel ts) = (d, some ts) := rfl
  rw [hstate]
  have hmaxdel : MaxDel (l ++ [KOp.ldel ts]) ts := by
    refine ⟨delIn_append.mpr (Or.inr rfl), ?_⟩
    intro ts' hdel
    rcases delIn_append.mp hdel with h | h
    · exact Or.inl (fresh_delIn hfresh h)
    · simp [KOp.unit] at h
      exact Or.inr h.symm
  have hputs : ∀ v' ts', PutIn (l ++ [KOp.ldel ts]) v' ts' → tsLt ts' ts := by
    intro v' ts' hp
    rcases putIn_append.mp hp with h | h
    · exact fresh_putIn hfresh h
    · simp [KOp.unit] at h
  rcases d with - | ⟨v0, ts0⟩
  · exact ⟨hmaxdel, hputs⟩
  · refine ⟨putIn_append.mpr (Or.inl (inv_putIn hinv)),
      delIn_append.mpr (Or.inr rfl), Or.inr ⟨hmaxdel, hputs⟩⟩

theorem kstep_inv_mput {V : Type} {L l : List (KOp V)} {v : V} {ts : Timestamp}
    {s : KState V} (hhyg : Hygiene L) (hsub : ∀ op ∈ l, op ∈ L)
    (hx : KOp.mput v ts ∈ L) (hinv : INV l s) :
    INV (l ++ [KOp.mput v ts]) (kstep s (KOp.mput v ts)) := by
  have hu : (KOp.mput v ts).unit = KUnit.uput v ts := rfl
  have hputL : PutIn L v ts := ⟨KOp.mput v ts, hx, rfl⟩
  have hne : ∀ ts', DelIn l ts' → ts ≠ ts' := fun ts' hd =>
    hhyg.2 v ts ts' hputL (delIn_mono hsub hd)
  have hself : PutIn (l ++ [KOp.mput v ts]) v ts :=
    (putIn_append_unit_put hu).mpr (Or.inr ⟨rfl, rfl⟩)
  obtain ⟨d, t⟩ := s
  rcases d with - | ⟨v0, ts0⟩
  · rcases t with - | tt
    · -- state (none, none): fresh entry, no tombstone
      obtain ⟨hnp, hnd⟩ := hinv
      have hstate : kstep ((none : Option (V × Timestamp)), (none : Option Timestamp))
          (KOp.mput v ts) = (some (v, ts), none) := rfl
      rw [hstate]
      refine ⟨hself, maxPut_append_put_new hu ?_, delsLt_append_put hu ?_⟩
      · intro v' ts' hp
        exact absurd hp (hnp v' ts')
      · intro ts' hd
        exact absurd hd (hnd ts')
    · -- state (none, some tt)
      obtain ⟨hmaxd, hputslt⟩ := hinv
      by_cases hlt : tsLt tt ts
      · have hstate : kstep ((none : Option (V × Timestamp)), some tt)
            (KOp.mput v ts) = (some (v, ts), none) := by
          simp [kstep, hlt]
        rw [hstate]
        refine ⟨hself, maxPut_append_put_new hu ?_, delsLt_append_put hu ?_⟩
        · intro v' ts' hp
          exact Or.inl (tsLt_trans (hputslt v' ts' hp) hlt)
        · intro ts' hd
          exact tsLt_of_tsLe_of_tsLt (hmaxd.2 ts' hd) hlt
      · have hstate : kstep ((none : Option (V × Timestamp)), some tt)
            (KOp.mput v ts) = (some (v, ts), some tt) := by
          simp [kstep, hlt]
        rw [hstate]
        have hlt2 : tsLt ts tt :=
          tsLt_of_tsLe_ne (tsLe_of_not_lt hlt) (hne tt hmaxd.1)
        exact ⟨hself, (delIn_append_unit_put hu).mpr hmaxd.1,
          Or.inr ⟨maxDel_append_put hu hmaxd, putsLt_append_put hu hputslt hlt2⟩⟩
  · by_cases hlt0 : tsLt ts0 ts
    · rcases t with - | tt
      · -- overwrite, no tombstone
        obtain ⟨hp0, hmax0, hdels0⟩ := hinv
        have hstate : kstep (some (v0, ts0), (none : Option Timestamp))
            (KOp.mput v ts) = (some (v, ts), none) := by
          simp [kstep, hlt0]
        rw [hstate]
        refine ⟨hself, maxPut_append_put_new hu ?_, delsLt_append_put hu ?_⟩
        · intro v' ts' hp
          exact Or.inl (tsLt_of_tsLe_of_tsLt (hmax0.2 v' ts' hp) hlt0)
        · intro ts' hd
          exact tsLt_trans (hdels0 ts' hd) hlt0
      · obtain ⟨hp0, hd0, hdisj⟩ := hinv
        rcases hdisj with ⟨hmax0, hdels0⟩ | ⟨hmaxd, hputs0⟩
        · -- visible entry: tombstone is older and gets removed
          have htt2 : tsLt tt ts := tsLt_trans (hdels0 tt hd0) hlt0
          have hstate : kstep (some (v0, ts0), some tt)
              (KOp.mput v ts) = (some (v, ts), none) := by
            simp [kstep, hlt0, htt2]
          rw [hstate]
          refine ⟨hself, maxPut_append_put_new hu ?_, delsLt_append_put hu ?_⟩
          · intro v' ts' hp
            exact Or.inl (tsLt_of_tsLe_of_tsLt (hmax0.2 v' ts' hp) hlt0)
          · intro ts' hd
            exact tsLt_trans (hdels0 ts' hd) hlt0
        · -- shadowed entry
          by_cases htt : tsLt tt ts
          · have hstate : kstep (some (v0, ts0), some tt)
                (KOp.mput v ts) = (some (v, ts), none) := by
              simp [kstep, hlt0, htt]
            rw [hstate]
            refine ⟨hself, maxPut_append_put_new hu ?_, delsLt_append_put hu ?_⟩
            · intro v' ts' hp
              exact Or.inl (tsLt_trans (hputs0 v' ts' hp) htt)
            · intro ts' hd
              exact tsLt_of_tsLe_of_tsLt (hmaxd.2 ts' hd) htt
          · have hstate : kstep (some (v0, ts0), some tt)
                (KOp.mput v ts) = (some (v, ts), some tt) := by
              simp [kstep, hlt0, htt]
            rw [hstate]
            have hlt2 : tsLt ts tt :=
              tsLt_of_tsLe_ne (tsLe_of_not_lt htt) (hne tt hmaxd.1)
            exact ⟨hself, (delIn_append_unit_put hu).mpr hmaxd.1,
              Or.inr ⟨maxDel_append_put hu hmaxd,
                putsLt_append_put hu hputs0 hlt2⟩⟩
    · -- no overwrite: state unchanged
      have hle : tsLe ts ts0 := tsLe_of_not_lt hlt0
      rcases t with - | tt
      · obtain ⟨hp0, hmax0, hdels0⟩ := hinv
        have hstate : kstep (some (v0, ts0), (none : Option Timestamp))
            (KOp.mput v ts) = (some (v0, ts0), none) := by
          simp [kstep, hlt0]
        rw [hstate]
        exact ⟨(putIn_append_unit_put hu).mpr (Or.inl hp0),
          maxPut_append_put_le hu hmax0 hle, delsLt_append_put hu hdels0⟩
      · obtain ⟨hp0, hd0, hdisj⟩ := hinv
        have hstate : kstep (some (v0, ts0), some tt)
            (KOp.mput v ts) = (some (v0, ts0), some tt) := by
          simp [kstep, hlt0]
        rw [hstate]
        refine ⟨(putIn_append_unit_put hu).mpr (Or.inl hp0),
          (delIn_append_unit_put hu).mpr hd0, ?_⟩
        rcases hdisj with ⟨hmax0, hdels0⟩ | ⟨hmaxd, hputs0⟩
        · exact Or.inl ⟨maxPut_append_put_le hu hmax0 hle,
            delsLt_append_put hu hdels0⟩
        · exact Or.inr ⟨maxDel_append_put hu hmaxd,
            putsLt_append_put hu hputs0
              (tsLt_of_tsLe_of_tsLt hle (hputs0 v0 ts0 hp0))⟩

theorem kstep_inv_mdel {V : Type} {L l : List (KOp V)} {ts : Timestamp}
    {s : KState V} (hhyg : Hygiene L) (hsub : ∀ op ∈ l, op ∈ L)
    (hx : KOp.mdel (V := V) ts ∈ L) (hinv : INV l s) :
    INV (l ++ [KOp.mdel ts]) (kstep s (KOp.mdel ts)) := by
  have hu : (KOp.mdel (V := V) ts).unit = KUnit.udel ts := rfl
  have hdelL : DelIn L ts := ⟨KOp.mdel ts, hx, rfl⟩
  have hne : ∀ v' ts', PutIn l v' ts' → ts' ≠ ts := fun v' ts' hp =>
    hhyg.2 v' ts' ts (putIn_mono hsub hp) hdelL
  have hselfd : DelIn (l ++ [KOp.mdel ts]) ts :=
    (delIn_append_unit_del hu).mpr (Or.inr rfl)
  obtain ⟨d, t⟩ := s
  rcases t with - | tt
  · rcases d with - | ⟨v0, ts0⟩
    · obtain ⟨hnp, hnd⟩ := hinv
      have hstate : kstep ((none : Option (V × Timestamp)), (none : Option Timestamp))
          (KOp.mdel ts) = (none, some ts) := rfl
      rw [hstate]
      refine ⟨maxDel_append_del_new hu ?_, putsLt_append_del hu ?_⟩
      · intro ts' hd
        exact absurd hd (hnd ts')
      · intro v' ts' hp
        exact absurd hp (hnp v' ts')
    · obtain ⟨hp0, hmax0, hdels0⟩ := hinv
      by_cases hle0 : tsLe ts0 ts
      · have hlt0 : tsLt ts0 ts := tsLt_of_tsLe_ne hle0 (hne v0 ts0 hp0)
        have hstate : kstep (some (v0, ts0), (none : Option Timestamp))
            (KOp.mdel ts) = (none, some ts) := by
          simp [kstep, hle0]
        rw [hstate]
        refine ⟨maxDel_append_del_new hu ?_, putsLt_append_del hu ?_⟩
        · intro ts' hd
          exact Or.inl (tsLt_trans (hdels0 ts' hd) hlt0)
        · intro v' ts' hp
          exact tsLt_of_tsLe_of_tsLt (hmax0.2 v' ts' hp) hlt0
      · have hlt : tsLt ts ts0 := tsLt_of_not_tsLe hle0
        have hstate : kstep (some (v0, ts0), (none : Option Timestamp))
            (KOp.mdel ts) = (some (v0, ts0), some ts) := by
          simp [kstep, hle0]
        rw [hstate]
        exact ⟨(putIn_append_unit_del hu).mpr hp0, hselfd,
          Or.inl ⟨maxPut_append_del hu hmax0, delsLt_append_del hu hdels0 hlt⟩⟩
  · by_cases hltt : tsLt tt ts
    · rcases d with - | ⟨v0, ts0⟩
      · obtain ⟨hmaxd, hputslt⟩ := hinv
        have hstate : kstep ((none : Option (V × Timestamp)), some tt)
            (KOp.mdel ts) = (none, some ts) := by
          simp [kstep, hltt]
        rw [hstate]
        refine ⟨maxDel_append_del_new hu ?_, putsLt_append_del hu ?_⟩
        · intro ts' hd
          exact Or.inl (tsLt_of_tsLe_of_tsLt (hmaxd.2 ts' hd) hltt)
        · intro v' ts' hp
          exact tsLt_trans (hputslt v' ts' hp) hltt
      · obtain ⟨hp0, hd0, hdisj⟩ := hinv
        by_cases hle0 : tsLe ts0 ts
        · have hlt0 : tsLt ts0 ts := tsLt_of_tsLe_ne hle0 (hne v0 ts0 hp0)
          have hstate : kstep (some (v0, ts0), some tt)
              (KOp.mdel ts) = (none, some ts) := by
            simp [kstep, hltt, hle0]
          rw [hstate]
          rcases hdisj with ⟨hmax0, hdels0⟩ | ⟨hmaxd, hputs0⟩
          · refine ⟨maxDel_append_del_new hu ?_, putsLt_append_del hu ?_⟩
            · intro ts' hd
              exact Or.inl (tsLt_trans (hdels0 ts' hd) hlt0)
            · intro v' ts' hp
              exact tsLt_of_tsLe_of_tsLt (hmax0.2 v' ts' hp) hlt0
          · refine ⟨maxDel_append_del_new hu ?_, putsLt_append_del hu ?_⟩
            · intro ts' hd
              exact Or.inl (tsLt_of_tsLe_of_tsLt (hmaxd.2 ts' hd) hltt)
            · intro v' ts' hp
              exact tsLt_trans (hputs0 v' ts' hp) hltt
        · have hlt : tsLt ts ts0 := tsLt_of_not_tsLe hle0
          have hstate : kstep (some (v0, ts0), some tt)
              (KOp.mdel ts) = (some (v0, ts0), some ts) := by
            simp [kstep, hltt, hle0]
          rw [hstate]
          rcases hdisj with ⟨hmax0, hdels0⟩ | ⟨hmaxd, hputs0⟩
          · exact ⟨(putIn_append_unit_del hu).mpr hp0, hselfd,
              Or.inl ⟨maxPut_append_del hu hmax0,
                delsLt_append_del hu hdels0 hlt⟩⟩
          · exact absurd (tsLt_trans (hputs0 v0 ts0 hp0) hltt)
              (tsLt_asymm hlt)
    · have hlets : tsLe ts tt := tsLe_of_not_lt hltt
      rcases d with - | ⟨v0, ts0⟩
      · obtain ⟨hmaxd, hputslt⟩ := hinv
        have hstate : kstep ((none : Option (V × Timestamp)), some tt)
            (KOp.mdel ts) = (none, some tt) := by
          simp [kstep, hltt]
        rw [hstate]
        exact ⟨maxDel_append_del_le hu hmaxd hlets, putsLt_append_del hu hputslt⟩
      · obtain ⟨hp0, hd0, hdisj⟩ := hinv
        have hstate : kstep (some (v0, ts0), some tt)
            (KOp.mdel ts) = (some (v0, ts0), some tt) := by
          simp [kstep, hltt]
        rw [hstate]
        refine ⟨(putIn_append_unit_del hu).mpr hp0,
          (delIn_append_unit_del hu).mpr (Or.inl hd0), ?_⟩
        rcases hdisj with ⟨hmax0, hdels0⟩ | ⟨hmaxd, hputs0⟩
        · exact Or.inl ⟨maxPut_append_del hu hmax0,
            delsLt_append_del hu hdels0
              (tsLt_of_tsLe_of_tsLt hlets (hdels0 tt hd0))⟩
        · exact Or.inr ⟨maxDel_append_del_le hu hmaxd hlets,
            putsLt_append_del hu hputs0⟩

theorem kstep_inv_sdel {V : Type} {L l : List (KOp V)} {ts : Timestamp}
    {s : KState V} (hhyg : Hygiene L) (hsub : ∀ op ∈ l, op ∈ L)
    (hx : KOp.sdel (V := V) ts ∈ L) (hinv : INV l s) :
    INV (l ++ [KOp.sdel ts]) (kstep s (KOp.sdel ts)) := by
  have hu : (KOp.sdel (V := V) ts).unit = KUnit.udel ts := rfl
  have hdelL : DelIn L ts := ⟨KOp.sdel ts, hx, rfl⟩
  have hne : ∀ v' ts', PutIn l v' ts' → ts' ≠ ts := fun v' ts' hp =>
    hhyg.2 v' ts' ts (putIn_mono hsub hp) hdelL
  have hselfd : DelIn (l ++ [KOp.sdel ts]) ts :=
    (delIn_append_unit_del hu).mpr (Or.inr rfl)
  obtain ⟨d, t⟩ := s
  rcases t with - | tt
  · rcases d with - | ⟨v0, ts0⟩
    · obtain ⟨hnp, hnd⟩ := hinv
      have hstate : kstep ((none : Option (V × Timestamp)), (none : Option Timestamp))
          (KOp.sdel ts) = (none, some ts) := rfl
      rw [hstate]
      refine ⟨maxDel_append_del_new hu ?_, putsLt_append_del hu ?_⟩
      · intro ts' hd
        exact absurd hd (hnd ts')
      · intro v' ts' hp
        exact absurd hp (hnp v' ts')
    · obtain ⟨hp0, hmax0, hdels0⟩ := hinv
      by_cases hle0 : tsLe ts0 ts
      · have hlt0 : tsLt ts0 ts := tsLt_of_tsLe_ne hle0 (hne v0 ts0 hp0)
        have hstate : kstep (some (v0, ts0), (none : Option Timestamp))
            (KOp.sdel ts) = (none, some ts) := by
          simp [kstep, hle0]
        rw [hstate]
        refine ⟨maxDel_append_del_new hu ?_, putsLt_append_del hu ?_⟩
        · intro ts' hd
          exact Or.inl (tsLt_trans (hdels0 ts' hd) hlt0)
        · intro v' ts' hp
          exact tsLt_of_tsLe_of_tsLt (hmax0.2 v' ts' hp) hlt0
      · have hlt : tsLt ts ts0 := tsLt_of_not_tsLe hle0
        have hstate : kstep (some (v0, ts0), (none : Option Timestamp))
            (KOp.sdel ts) = (some (v0, ts0), some ts) := by
          simp [kstep, hle0]
        rw [hstate]
        exact ⟨(putIn_append_unit_del hu).mpr hp0, hselfd,
          Or.inl ⟨maxPut_append_del hu hmax0, delsLt_append_del hu hdels0 hlt⟩⟩
  · by_cases hltt : tsLt tt ts
    · rcases d with - | ⟨v0, ts0⟩
      · obtain ⟨hmaxd, hputslt⟩ := hinv
        have hstate : kstep ((none : Option (V × Timestamp)), some tt)
            (KOp.sdel ts) = (none, some ts) := by
          simp [kstep, hltt]
        rw [hstate]
        refine ⟨maxDel_append_del_new hu ?_, putsLt_append_del hu ?_⟩
        · intro ts' hd
          exact Or.inl (tsLt_of_tsLe_of_tsLt (hmaxd.2 ts' hd) hltt)
        · intro v' ts' hp
          exact tsLt_trans (hputslt v' ts' hp) hltt
      · obtain ⟨hp0, hd0, hdisj⟩ := hinv
        by_cases hle0 : tsLe ts0 ts
        · have hlt0 : tsLt ts0 ts := tsLt_of_tsLe_ne hle0 (hne v0 ts0 hp0)
          have hstate : kstep (some (v0, ts0), some tt)
              (KOp.sdel ts) = (none, some ts) := by
            simp [kstep, hltt, hle0]
          rw [hstate]
          rcases hdisj with ⟨hmax0, hdels0⟩ | ⟨hmaxd, hputs0⟩
          · refine ⟨maxDel_append_del_new hu ?_, putsLt_append_del hu ?_⟩
            · intro ts' hd
              exact Or.inl (tsLt_trans (hdels0 ts' hd) hlt0)
            · intro v' ts' hp
              exact tsLt_of_tsLe_of_tsLt (hmax0.2 v' ts' hp) hlt0
          · refine ⟨maxDel_append_del_new hu ?_, putsLt_append_del hu ?_⟩
            · intro ts' hd
              exact Or.inl (tsLt_of_tsLe_of_tsLt (hmaxd.2 ts' hd) hltt)
            · intro v' ts' hp
              exact tsLt_trans (hputs0 v' ts' hp) hltt
        · have hlt : tsLt ts ts0 := tsLt_of_not_tsLe hle0
          have hstate : kstep (some (v0, ts0), some tt)
              (KOp.sdel ts) = (some (v0, ts0), some ts) := by
            simp [kstep, hltt, hle0]
          rw [hstate]
          rcases hdisj with ⟨hmax0, hdels0⟩ | ⟨hmaxd, hputs0⟩
          · exact ⟨(putIn_append_unit_del hu).mpr hp0, hselfd,
              Or.inl ⟨maxPut_append_del hu hmax0,
                delsLt_append_del hu hdels0 hlt⟩⟩
          · exact absurd (tsLt_trans (hputs0 v0 ts0 hp0) hltt)
              (tsLt_asymm hlt)
    · have hlets : tsLe ts tt := tsLe_of_not_lt hltt
      rcases d with - | ⟨v0, ts0⟩
      · obtain ⟨hmaxd, hputslt⟩ := hinv
        have hstate : kstep ((none : Option (V × Timestamp)), some tt)
            (KOp.sdel ts) = (none, some tt) := by
          simp [kstep, hltt]
        rw [hstate]
        exact ⟨maxDel_append_del_le hu hmaxd hlets, putsLt_append_del hu hputslt⟩
      · obtain ⟨hp0, hd0, hdisj⟩ := hinv
        by_cases hle0 : tsLe ts0 tt
        · have hstate : kstep (some (v0, ts0), some tt)
              (KOp.sdel ts) = (none, some tt) := by
            simp [kstep, hltt, hle0]
          rw [hstate]
          rcases hdisj with ⟨hmax0, hdels0⟩ | ⟨hmaxd, hputs0⟩
          · exact absurd (hdels0 tt hd0) (not_lt_of_tsLe hle0)
          · exact ⟨maxDel_append_del_le hu hmaxd hlets,
              putsLt_append_del hu hputs0⟩
        · have hstate : kstep (some (v0, ts0), some tt)
              (KOp.sdel ts) = (some (v0, ts0), some tt) := by
            simp [kstep, hltt, hle0]
          rw [hstate]
          rcases hdisj with ⟨hmax0, hdels0⟩ | ⟨hmaxd, hputs0⟩
          · exact ⟨(putIn_append_unit_del hu).mpr hp0,
              (delIn_append_unit_del hu).mpr (Or.inl hd0),
              Or.inl ⟨maxPut_append_del hu hmax0,
                delsLt_append_del hu hdels0
                  (tsLt_of_tsLe_of_tsLt hlets (hdels0 tt hd0))⟩⟩
          · exact absurd (Or.inl (hputs0 v0 ts0 hp0)) hle0

theorem kstep_inv_sput {V : Type} {L l : List (KOp V)} {v : V} {ts : Timestamp}
    {s : KState V} (hhyg : Hygiene L) (hsub : ∀ op ∈ l, op ∈ L)
    (hx : KOp.sput v ts ∈ L) (hinv : INV l s) :
    INV (l ++ [KOp.sput v ts]) (kstep s (KOp.sput v ts)) := by
  have hu : (KOp.sput v ts).unit = KUnit.uput v ts := rfl
  have hputL : PutIn L v ts := ⟨KOp.sput v ts, hx, rfl⟩
  have hne : ∀ ts', DelIn l ts' → ts ≠ ts' := fun ts' hd =>
    hhyg.2 v ts ts' hputL (delIn_mono hsub hd)
  have hself : PutIn (l ++ [KOp.sput v ts]) v ts :=
    (putIn_append_unit_put hu).mpr (Or.inr ⟨rfl, rfl⟩)
  obtain ⟨d, t⟩ := s
  rcases t with - | tt
  · rcases d with - | ⟨v0, ts0⟩
    · obtain ⟨hnp, hnd⟩ := hinv
      have hstate : kstep ((none : Option (V × Timestamp)), (none : Option Timestamp))
          (KOp.sput v ts) = (some (v, ts), none) := rfl
      rw [hstate]
      refine ⟨hself, maxPut_append_put_new hu ?_, delsLt_append_put hu ?_⟩
      · intro v' ts' hp
        exact absurd hp (hnp v' ts')
      · intro ts' hd
        exact absurd hd (hnd ts')
    · obtain ⟨hp0, hmax0, hdels0⟩ := hinv
      by_cases hlt0 : tsLt ts0 ts
      · have hstate : kstep (some (v0, ts0), (none : Option Timestamp))
            (KOp.sput v ts) = (some (v, ts), none) := by
          simp [kstep, hlt0]
        rw [hstate]
        refine ⟨hself, maxPut_append_put_new hu ?_, delsLt_append_put hu ?_⟩
        · intro v' ts' hp
          exact Or.inl (tsLt_of_tsLe_of_tsLt (hmax0.2 v' ts' hp) hlt0)
        · intro ts' hd
          exact tsLt_trans (hdels0 ts' hd) hlt0
      · have hstate : kstep (some (v0, ts0), (none : Option Timestamp))
            (KOp.sput v ts) = (some (v0, ts0), none) := by
          simp [kstep, hlt0]
        rw [hstate]
        exact ⟨(putIn_append_unit_put hu).mpr (Or.inl hp0),
          maxPut_append_put_le hu hmax0 (tsLe_of_not_lt hlt0),
          delsLt_append_put hu hdels0⟩
  · by_cases hle : tsLe ts tt
    · -- shadowed by the tombstone: skipped
      have hstate : kstep (d, some tt) (KOp.sput v ts) = (d, some tt) := by
        rcases d with - | ⟨v0, ts0⟩ <;> simp [kstep, hle]
      rw [hstate]
      have hltt : tsLt ts tt :=
        tsLt_of_tsLe_ne hle (hne tt (inv_delIn hinv))
      rcases d with - | ⟨v0, ts0⟩
      · obtain ⟨hmaxd, hputslt⟩ := hinv
        exact ⟨maxDel_append_put hu hmaxd,
          putsLt_append_put hu hputslt hltt⟩
      · obtain ⟨hp0, hd0, hdisj⟩ := hinv
        refine ⟨(putIn_append_unit_put hu).mpr (Or.inl hp0),
          (delIn_append_unit_put hu).mpr hd0, ?_⟩
        rcases hdisj with ⟨hmax0, hdels0⟩ | ⟨hmaxd, hputs0⟩
        · exact Or.inl ⟨maxPut_append_put_le hu hmax0
            (Or.inl (tsLt_trans hltt (hdels0 tt hd0))),
            delsLt_append_put hu hdels0⟩
        · exact Or.inr ⟨maxDel_append_put hu hmaxd,
            putsLt_append_put hu hputs0 hltt⟩
    · have hltt : tsLt tt ts := tsLt_of_not_tsLe hle
      rcases d with - | ⟨v0, ts0⟩
      · obtain ⟨hmaxd, hputslt⟩ := hinv
        have hstate : kstep ((none : Option (V × Timestamp)), some tt)
            (KOp.sput v ts) = (some (v, ts), some tt) := by
          simp [kstep, hle]
        rw [hstate]
        refine ⟨hself, (delIn_append_unit_put hu).mpr hmaxd.1,
          Or.inl ⟨maxPut_append_put_new hu ?_, delsLt_append_put hu ?_⟩⟩
        · intro v' ts' hp
          exact Or.inl (tsLt_trans (hputslt v' ts' hp) hltt)
        · intro ts' hd
          exact tsLt_of_tsLe_of_tsLt (hmaxd.2 ts' hd) hltt
      · obtain ⟨hp0, hd0, hdisj⟩ := hinv
        by_cases hlt0 : tsLt ts0 ts
        · have hstate : kstep (some (v0, ts0), some tt)
              (KOp.sput v ts) = (some (v, ts), some tt) := by
            simp [kstep, hle, hlt0]
          rw [hstate]
          refine ⟨hself, (delIn_append_unit_put hu).mpr hd0, ?_⟩
          rcases hdisj with ⟨hmax0, hdels0⟩ | ⟨hmaxd, hputs0⟩
          · refine Or.inl ⟨maxPut_append_put_new hu ?_, delsLt_append_put hu ?_⟩
            · intro v' ts' hp
              exact Or.inl (tsLt_of_tsLe_of_tsLt (hmax0.2 v' ts' hp) hlt0)
            · intro ts' hd
              exact tsLt_trans (hdels0 ts' hd) hlt0
          · refine Or.inl ⟨maxPut_append_put_new hu ?_, delsLt_append_put hu ?_⟩
            · intro v' ts' hp
              exact Or.inl (tsLt_trans (hputs0 v' ts' hp) hltt)
            · intro ts' hd
              exact tsLt_of_tsLe_of_tsLt (hmaxd.2 ts' hd) hltt
        · have hstate : kstep (some (v0, ts0), some tt)
              (KOp.sput v ts) = (some (v0, ts0), some tt) := by
            simp [kstep, hle, hlt0]
          rw [hstate]
          refine ⟨(putIn_append_unit_put hu).mpr (Or.inl hp0),
            (delIn_append_unit_put hu).mpr hd0, ?_⟩
          rcases hdisj with ⟨hmax0, hdels0⟩ | ⟨hmaxd, hputs0⟩
          · exact Or.inl ⟨maxPut_append_put_le hu hmax0 (tsLe_of_not_lt hlt0),
              delsLt_append_put hu hdels0⟩
          · exact absurd (tsLt_trans (hputs0 v0 ts0 hp0) hltt) hlt0

/-- Any single per-key step preserves the invariant. -/
theorem kstep_inv {V : Type} {L l : List (KOp V)} {x : KOp V} {s : KState V}
    (hhyg : Hygiene L) (hsub : ∀ op ∈ l, op ∈ L) (hx : x ∈ L)
    (hfresh : x.isLocal = true → ∀ op ∈ l, tsLt op.ts x.ts)
    (hinv : INV l s) : INV (l ++ [x]) (kstep s x) := by
  cases x with
  | lput v ts => exact kstep_inv_lput (hfresh rfl) hinv
  | ldel ts => exact kstep_inv_ldel (hfresh rfl) hinv
  | mput v ts => exact kstep_inv_mput hhyg hsub hx hinv
  | mdel ts => exact kstep_inv_mdel hhyg hsub hx hinv
  | sput v ts => exact kstep_inv_sput hhyg hsub hx hinv
  | sdel ts => exact kstep_inv_sdel hhyg hsub hx hinv

theorem kapply_inv {V : Type} {L : List (KOp V)} (hhyg : Hygiene L) :
    ∀ (xs pre : List (KOp V)) (s : KState V),
      (∀ op ∈ pre, op ∈ L) → (∀ op ∈ xs, op ∈ L) →
      (pre ++ xs).Pairwise (fun a b => b.isLocal = true → tsLt a.ts b.ts) →
      INV pre s → INV (pre ++ xs) (kapply xs s) := by
  intro xs
  induction xs with
  | nil =>
      intro pre s hpre hxs hpw hinv
      simpa [kapply] using hinv
  | cons x xs ih =>
      intro pre s hpre hxs hpw hinv
      have hxL : x ∈ L := hxs x (List.mem_cons_self x xs)
      have hcross : ∀ a ∈ pre, x.isLocal = true → tsLt a.ts x.ts := by
        intro a ha
        exact (List.pairwise_append.mp hpw).2.2 a ha x (List.mem_cons_self x xs)
      have hinv' : INV (pre ++ [x]) (kstep s x) :=
        kstep_inv hhyg hpre hxL (fun hl op hop => hcross op hop hl) hinv
      have hpre' : ∀ op ∈ pre ++ [x], op ∈ L := by
        intro op hop
        rcases List.mem_append.mp hop with h | h
        · exact hpre op h
        · rcases List.mem_singleton.mp h with rfl
          exact hxL
      have hxs' : ∀ op ∈ xs, op ∈ L := fun op hop =>
        hxs op (List.mem_cons_of_mem x hop)
      have hpw' : ((pre ++ [x]) ++ xs).Pairwise
          (fun a b => b.isLocal = true → tsLt a.ts b.ts) := by
        rw [List.append_assoc]
        exact hpw
      have := ih (pre ++ [x]) (kstep s x) hpre' hxs' hpw' hinv'
      rw [List.append_assoc] at this
      exact this

/-- An empty per-key state satisfies the invariant for the empty history. -/
theorem inv_nil {V : Type} :
    INV ([] : List (KOp V)) ((none, none) : KState V) := by
  constructor
  · intro v ts h
    obtain ⟨op, hop, -⟩ := h
    exact absurd hop (List.not_mem_nil op)
  · intro ts h
    obtain ⟨op, hop, -⟩ := h
    exact absurd hop (List.not_mem_nil op)

/-- Applying a whole locally-fresh history from the empty state yields a state
satisfying the invariant. -/
theorem kapply_inv_init {V : Type} {l : List (KOp V)} (hhyg : Hygiene l)
    (hfresh : LocalFresh l) :
    INV l (kapply l ((none, none) : KState V)) := by
  have := kapply_inv (L := l) hhyg l [] ((none, none) : KState V)
    (by intro op hop; exact absurd hop (List.not_mem_nil op))
    (fun op hop => hop) (by simpa using hfresh) inv_nil
  simpa using this

/-- `(v, ts)` is the winning put of the history `l`: it is a put of maximal
timestamp, and no tombstone reaches it. -/
def Visible {V : Type} (l : List (KOp V)) (v : V) (ts : Timestamp) : Prop :=
  PutIn l v ts ∧ (∀ v' ts', PutIn l v' ts' → tsLe ts' ts) ∧
    (∀ ts', DelIn l ts' → tsLt ts' ts)

theorem hygiene_mono {V : Type} {l L : List (KOp V)} (hsub : ∀ op ∈ l, op ∈ L)
    (h : Hygiene L) : Hygiene l := by
  constructor
  · intro v1 ts1 v2 ts2 h1 h2 he
    exact h.1 v1 ts1 v2 ts2 (putIn_mono hsub h1) (putIn_mono hsub h2) he
  · intro v ts ts' h1 h2
    exact h.2 v ts ts' (putIn_mono hsub h1) (delIn_mono hsub h2)

/-- In an invariant state, if the history has a winning put, `kget` returns
its value. -/
theorem kget_eq_of_visible {V : Type} {l : List (KOp V)} {s : KState V}
    {v : V} {ts : Timestamp} (hhyg : Hygiene l) (hinv : INV l s)
    (hvis : Visible l v ts) : kget s = some v := by
  obtain ⟨d, t⟩ := s
  rcases d with - | ⟨v0, ts0⟩
  · rcases t with - | tt
    · exact absurd hvis.1 (hinv.1 v ts)
    · exact absurd (hinv.2 v ts hvis.1)
        (tsLt_asymm (hvis.2.2 tt hinv.1.1))
  · rcases t with - | tt
    · obtain ⟨hp0, hmax0, hdels0⟩ := hinv
      have hts : ts = ts0 :=
        tsLe_antisymm (hmax0.2 v ts hvis.1) (hvis.2.1 v0 ts0 hp0)
      have hv : v = v0 := hhyg.1 v ts v0 ts0 hvis.1 hp0 hts
      simp [kget, hv]
    · obtain ⟨hp0, hd0, hdisj⟩ := hinv
      rcases hdisj with ⟨hmax0, hdels0⟩ | ⟨hmaxd, hputs0⟩
      · have hts : ts = ts0 :=
          tsLe_antisymm (hmax0.2 v ts hvis.1) (hvis.2.1 v0 ts0 hp0)
        have hv : v = v0 := hhyg.1 v ts v0 ts0 hvis.1 hp0 hts
        have hlt : tsLt tt ts0 := hdels0 tt hd0
        have : ¬ tsLe ts0 tt := fun hle => (not_lt_of_tsLe hle) hlt
        simp [kget, hv, this]
      · exact absurd (hputs0 v ts hvis.1)
          (tsLt_asymm (hvis.2.2 tt hmaxd.1))

/-- In an invariant state, if `kget` returns a value then the history has a
winning put with that value. -/
theorem visible_of_kget_some {V : Type} {l : List (KOp V)} {s : KState V}
    {v : V} (hinv : INV l s) (hget : kget s = some v) :
    ∃ ts, Visible l v ts := by
  obtain ⟨d, t⟩ := s
  rcases d with - | ⟨v0, ts0⟩
  · rcases t with - | tt <;> simp [kget] at hget
  · rcases t with - | tt
    · obtain ⟨hp0, hmax0, hdels0⟩ := hinv
      simp [kget] at hget
      exact ⟨ts0, hget ▸ hp0, fun v' ts' hp => hmax0.2 v' ts' hp, hdels0⟩
    · obtain ⟨hp0, hd0, hdisj⟩ := hinv
      rcases hdisj with ⟨hmax0, hdels0⟩ | ⟨hmaxd, hputs0⟩
      · have hlt : tsLt tt ts0 := hdels0 tt hd0
        have hnle : ¬ tsLe ts0 tt := fun hle => (not_lt_of_tsLe hle) hlt
        simp [kget, hnle] at hget
        exact ⟨ts0, hget ▸ hp0, fun v' ts' hp => hmax0.2 v' ts' hp, hdels0⟩
      · have hle : tsLe ts0 tt := Or.inl (hputs0 v0 ts0 hp0)
        simp [kget, hle] at hget

/-- Two invariant states over histories with the same observed units have the
same `kget`. -/
theorem inv_kget_eq {V : Type} {l1 l2 : List (KOp V)} {s1 s2 : KState V}
    (hhyg : Hygiene (l1 ++ l2))
    (hmem : ∀ u : KUnit V, (∃ op ∈ l1, op.unit = u) ↔ (∃ op ∈ l2, op.unit = u))
    (h1 : INV l1 s1) (h2 : INV l2 s2) : kget s1 = kget s2 := by
  have hsub1 : ∀ op ∈ l1, op ∈ l1 ++ l2 := fun op hop =>
    List.mem_append.mpr (Or.inl hop)
  have hsub2 : ∀ op ∈ l2, op ∈ l1 ++ l2 := fun op hop =>
    List.mem_append.mpr (Or.inr hop)
  have hhyg1 : Hygiene l1 := hygiene_mono hsub1 hhyg
  have hhyg2 : Hygiene l2 := hygiene_mono hsub2 hhyg
  have hput : ∀ v ts, PutIn l1 v ts ↔ PutIn l2 v ts := fun v ts =>
    hmem (KUnit.uput v ts)
  have hdel : ∀ ts, DelIn l1 ts ↔ DelIn l2 ts := fun ts => hmem (KUnit.udel ts)
  have hvis : ∀ v ts, Visible l1 v ts ↔ Visible l2 v ts := by
    intro v ts
    constructor
    · rintro ⟨hp, hmax, hdels⟩
      exact ⟨(hput v ts).mp hp,
        fun v' ts' hp' => hmax v' ts' ((hput v' ts').mpr hp'),
        fun ts' hd' => hdels ts' ((hdel ts').mpr hd')⟩
    · rintro ⟨hp, hmax, hdels⟩
      exact ⟨(hput v ts).mpr hp,
        fun v' ts' hp' => hmax v' ts' ((hput v' ts').mp hp'),
        fun ts' hd' => hdels ts' ((hdel ts').mp hd')⟩
  rcases hg1 : kget s1 with - | v
  · rcases hg2 : kget s2 with - | w
    · rfl
    · obtain ⟨ts, hv⟩ := visible_of_kget_some h2 hg2
      have hcontra := kget_eq_of_visible hhyg1 h1 ((hvis w ts).mpr hv)
      rw [hg1] at hcontra
      exact absurd hcontra (by simp)
  · obtain ⟨ts, hv⟩ := visible_of_kget_some h1 hg1
    exact (kget_eq_of_visible hhyg2 h2 ((hvis v ts).mp hv)).symm

/-- Per-key convergence: two locally-fresh histories observing the same units
yield the same `kget` from the empty state. -/
theorem kget_converges {V : Type} {l1 l2 : List (KOp V)}
    (hhyg : Hygiene (l1 ++ l2)) (hf1 : LocalFresh l1) (hf2 : LocalFresh l2)
    (hmem : ∀ u : KUnit V, (∃ op ∈ l1, op.unit = u) ↔ (∃ op ∈ l2, op.unit = u)) :
    kget (kapply l1 ((none, none) : KState V)) =
      kget (kapply l2 ((none, none) : KState V)) := by
  have hsub1 : ∀ op ∈ l1, op ∈ l1 ++ l2 := fun op hop =>
    List.mem_append.mpr (Or.inl hop)
  have hsub2 : ∀ op ∈ l2, op ∈ l1 ++ l2 := fun op hop =>
    List.mem_append.mpr (Or.inr hop)
  exact inv_kget_eq hhyg hmem
    (kapply_inv_init (hygiene_mono hsub1 hhyg) hf1)
    (kapply_inv_init (hygiene_mono hsub2 hhyg) hf2)

/-!
## The full `LWWMap`

`data` and `tombstones` are modelled as lookup functions
`String → Option _` (the dictionaries of `src/fl/crdt.py`).  A state
snapshot (the output of `to_dict`, input of `merge_state`) carries its
entries as explicit lists since `merge_state` iterates over them.
-/

/-- `LWWMap` state from `src/fl/crdt.py`. -/
structure LWWMap (V : Type) where
  replica_id : String
  clock : Int
  data : String → Option (V × Timestamp)
  tombstones : String → Option Timestamp

/-- `LWWMap.__init__`. -/
def LWWMap.init (V : Type) (rid : String) : LWWMap V :=
  ⟨rid, 0, fun _ => none, fun _ => none⟩

/-- Pointwise update of a lookup function (dictionary write / delete). -/
def updateFn {α : Type} (f : String → Option α) (key : String)
    (val : Option α) : String → Option α :=
  fun k => if k = key then val else f k

/-- A single-operation delta, as returned by `put` / `delete`. -/
inductive Delta (V : Type) where
  | put (key : String) (value : V) (ts : Timestamp)
  | del (key : String) (ts : Timestamp)
deriving DecidableEq, Repr

/-- `LWWMap.put`: bump the clock, write `(value, ts)`, drop an older
tombstone; returns the new state and the emitted delta. -/
def LWWMap.put {V : Type} (s : LWWMap V) (key : String) (value : V) :
    LWWMap V × Delta V :=
  let ts : Timestamp := ⟨s.replica_id, s.clock + 1⟩
  ({ s with
      clock := s.clock + 1
      data := updateFn s.data key (some (value, ts))
      tombstones := updateFn s.tombstones key
        (match s.tombstones key with
         | some tt => if tsLt tt ts then none else some tt
         | none => none) },
    Delta.put key value ts)

/-- `LWWMap.get`: the stored value, unless a tombstone with `ts ≥` the
entry's timestamp shadows it. -/
def LWWMap.get {V : Type} (s : LWWMap V) (key : String) : Option V :=
  kget (s.data key, s.tombstones key)

/-- `LWWMap.delete`: bump the clock and record a tombstone; the `data`
entry is not touched.  Returns the new state and the emitted delta. -/
def LWWMap.delete {V : Type} (s : LWWMap V) (key : String) :
    LWWMap V × Delta V :=
  let ts : Timestamp := ⟨s.replica_id, s.clock + 1⟩
  ({ s with
      clock := s.clock + 1
      tombstones := updateFn s.tombstones key (some ts) },
    Delta.del key ts)

/-- `LWWMap.merge`: apply a single `put`/`delete` delta; the local clock
becomes `max(clock, ts.logical_time) + 1`. -/
def LWWMap.merge {V : Type} (s : LWWMap V) : Delta V → LWWMap V
  | .put key value ts =>
      let newClock := max s.clock ts.logical_time + 1
      (match s.data key with
       | none =>
           { s with
              clock := newClock
              data := updateFn s.data key (some (value, ts))
              tombstones := updateFn s.tombstones key
                (match s.tombstones key with
                 | some tt => if tsLt tt ts then none else some tt
                 | none => none) }
       | some (v0, ts0) =>
           if tsLt ts0 ts then
             { s with
                clock := newClock
                data := updateFn s.data key (some (value, ts))
                tombstones := updateFn s.tombstones key
                  (match s.tombstones key with
                   | some tt => if tsLt tt ts then none else some tt
                   | none => none) }
           else { s with clock := newClock })
  | .del key ts =>
      let newClock := max s.clock ts.logical_time + 1
      (match s.tombstones key with
       | none =>
           { s with
              clock := newClock
              tombstones := updateFn s.tombstones key (some ts)
              data := updateFn s.data key
                (match s.data key with
                 | some (v0, ts0) => if tsLe ts0 ts then none else some (v0, ts0)
                 | none => none) }
       | some tt =>
           if tsLt tt ts then
             { s with
                clock := newClock
                tombstones := updateFn s.tombstones key (some ts)
                data := updateFn s.data key
                  (match s.data key with
                   | some (v0, ts0) => if tsLe ts0 ts then none else some (v0, ts0)
                   | none => none) }
           else { s with clock := newClock })

/-- A state snapshot, as produced by `LWWMap.to_dict` and consumed by
`merge_state`: the clock plus explicit entry lists. -/
structure Snapshot (V : Type) where
  clock : Int
  dataL : List (String × V × Timestamp)
  tombL : List (String × Timestamp)

/-- Body of the tombstone loop of `merge_state` for one snapshot entry:
adopt the tombstone if strictly newer, then drop the data entry whenever the
(possibly unchanged) tombstone covers it. -/
def applyTombEntry {V : Type} (s : LWWMap V) (key : String)
    (ots : Timestamp) : LWWMap V :=
  let newTomb : Timestamp :=
    match s.tombstones key with
    | none => ots
    | some tt => if tsLt tt ots then ots else tt
  { s with
      tombstones := updateFn s.tombstones key (some newTomb)
      data := updateFn s.data key
        (match s.data key with
         | some (v0, ts0) => if tsLe ts0 newTomb then none else some (v0, ts0)
         | none => none) }

/-- Body of the data loop of `merge_state` for one snapshot entry: skip if
shadowed by the tombstone, else last-writer-wins on the data entry. -/
def applyDataEntry {V : Type} (s : LWWMap V) (key : String) (value : V)
    (ots : Timestamp) : LWWMap V :=
  match s.tombstones key with
  | some tt =>
      if tsLe ots tt then s
      else
        match s.data key with
        | none => { s with data := updateFn s.data key (some (value, ots)) }
        | some (v0, ts0) =>
            if tsLt ts0 ots then
              { s with data := updateFn s.data key (some (value, ots)) }
            else s
  | none =>
      match s.data key with
      | none => { s with data := updateFn s.data key (some (value, ots)) }
      | some (v0, ts0) =>
          if tsLt ts0 ots then
            { s with data := updateFn s.data key (some (value, ots)) }
          else s

/-- `LWWMap.merge_state`: bump the clock against the snapshot's clock, merge
all snapshot tombstones, then all snapshot data entries. -/
def LWWMap.merge_state {V : Type} (s : LWWMap V) (o : Snapshot V) : LWWMap V :=
  let s1 := { s with clock := max s.clock o.clock + 1 }
  let s2 := o.tombL.foldl (fun acc kt => applyTombEntry acc kt.1 kt.2) s1
  o.dataL.foldl (fun acc kd => applyDataEntry acc kd.1 kd.2.1 kd.2.2) s2

/-- One step in a replica's history: a local operation, the merge of a
single-operation delta, or the merge of a full state snapshot. -/
inductive Event (V : Type) where
  | put (key : String) (v : V)
  | del (key : String)
  | mergeDelta (d : Delta V)
  | mergeState (o : Snapshot V)

/-- Apply one event to a replica state. -/
def applyEvent {V : Type} (s : LWWMap V) : Event V → LWWMap V
  | .put key v => (s.put key v).1
  | .del key => (s.delete key).1
  | .mergeDelta d => s.merge d
  | .mergeState o => s.merge_state o

/-- Apply a history of events. -/
def applyEvents {V : Type} (s : LWWMap V) (events : List (Event V)) : LWWMap V :=
  events.foldl applyEvent s

/-- Projection of a replica state to one key. -/
def proj {V : Type} (s : LWWMap V) (k : String) : KState V :=
  (s.data k, s.tombstones k)

/-- The per-key operations generated by one event from state `s`. -/
def stepOps {V : Type} (s : LWWMap V) (e : Event V) (k : String) : List (KOp V) :=
  match e with
  | .put key v =>
      if k = key then [KOp.lput v ⟨s.replica_id, s.clock + 1⟩] else []
  | .del key =>
      if k = key then [KOp.ldel ⟨s.replica_id, s.clock + 1⟩] else []
  | .mergeDelta (.put key v ts) => if k = key then [KOp.mput v ts] else []
  | .mergeDelta (.del key ts) => if k = key then [KOp.mdel ts] else []
  | .mergeState o =>
      o.tombL.filterMap (fun kt => if k = kt.1 then some (KOp.sdel kt.2) else none)
        ++ o.dataL.filterMap
            (fun kd => if k = kd.1 then some (KOp.sput kd.2.1 kd.2.2) else none)

/-- The per-key operations generated by a whole history from state `s`. -/
def genOps {V : Type} (s : LWWMap V) (events : List (Event V)) (k : String) :
    List (KOp V) :=
  match events with
  | [] => []
  | e :: rest => stepOps s e k ++ genOps (applyEvent s e) rest k

theorem proj_put {V : Type} (s : LWWMap V) (key : String) (v : V) (k : String) :
    proj ((s.put key v).1) k =
      kapply (stepOps s (Event.put key v) k) (proj s k) := by
  by_cases hk : k = key
  · subst hk
    simp [proj, LWWMap.put, stepOps, kapply, kstep, updateFn]
  · simp [proj, LWWMap.put, stepOps, kapply, updateFn, hk]

theorem proj_delete {V : Type} (s : LWWMap V) (key : String) (k : String) :
    proj ((s.delete key).1) k =
      kapply (stepOps s (Event.del key) k) (proj s k) := by
  by_cases hk : k = key
  · subst hk
    simp [proj, LWWMap.delete, stepOps, kapply, kstep, updateFn]
  · simp [proj, LWWMap.delete, stepOps, kapply, updateFn, hk]

theorem proj_merge_put {V : Type} (s : LWWMap V) (key : String) (v : V)
    (ts : Timestamp) (k : String) :
    proj (s.merge (Delta.put key v ts)) k =
      kapply (stepOps s (Event.mergeDelta (Delta.put key v ts)) k) (proj s k) := by
  by_cases hk : k = key
  · subst hk
    rcases hd : s.data k with - | ⟨v0, ts0⟩
    · simp [proj, LWWMap.merge, stepOps, kapply, kstep, updateFn, hd]
    · by_cases hlt : tsLt ts0 ts <;>
        simp [proj, LWWMap.merge, stepOps, kapply, kstep, updateFn, hd, hlt]
  · rcases hd : s.data key with - | ⟨v0, ts0⟩
    · simp [proj, LWWMap.merge, stepOps, kapply, updateFn, hd, hk]
    · by_cases hlt : tsLt ts0 ts <;>
        simp [proj, LWWMap.merge, stepOps, kapply, updateFn, hd, hk, hlt]

theorem proj_merge_del {V : Type} (s : LWWMap V) (key : String)
    (ts : Timestamp) (k : String) :
    proj (s.merge (Delta.del key ts)) k =
      kapply (stepOps s (Event.mergeDelta (Delta.del key ts)) k) (proj s k) := by
  by_cases hk : k = key
  · subst hk
    rcases ht : s.tombstones k with - | tt
    · simp [proj, LWWMap.merge, stepOps, kapply, kstep, updateFn, ht]
    · by_cases hlt : tsLt tt ts <;>
        simp [proj, LWWMap.merge, stepOps, kapply, kstep, updateFn, ht, hlt]
  · rcases ht : s.tombstones key with - | tt
    · simp [proj, LWWMap.merge, stepOps, kapply, updateFn, ht, hk]
    · by_cases hlt : tsLt tt ts <;>
        simp [proj, LWWMap.merge, stepOps, kapply, updateFn, ht, hk, hlt]

theorem proj_applyTombEntry {V : Type} (s : LWWMap V) (key : String)
    (ts : Timestamp) (k : String) :
    proj (applyTombEntry s key ts) k =
      if k = key then kstep (proj s k) (KOp.sdel ts) else proj s k := by
  by_cases hk : k = key
  · subst hk
    rcases ht : s.tombstones k with - | tt
    · rcases hd : s.data k with - | ⟨v0, ts0⟩ <;>
        simp [proj, applyTombEntry, kstep, updateFn, ht, hd]
    · rcases hd : s.data k with - | ⟨v0, ts0⟩ <;>
        (by_cases hlt : tsLt tt ts <;>
          simp [proj, applyTombEntry, kstep, updateFn, ht, hd, hlt])
  · simp [proj, applyTombEntry, updateFn, hk]

theorem proj_applyDataEntry {V : Type} (s : LWWMap V) (key : String) (v : V)
    (ts : Timestamp) (k : String) :
    proj (applyDataEntry s key v ts) k =
      if k = key then kstep (proj s k) (KOp.sput v ts) else proj s k := by
  by_cases hk : k = key
  · subst hk
    rcases ht : s.tombstones k with - | tt
    · rcases hd : s.data k with - | ⟨v0, ts0⟩
      · simp [proj, applyDataEntry, kstep, updateFn, ht, hd]
      · by_cases hlt : tsLt ts0 ts <;>
          simp [proj, applyDataEntry, kstep, updateFn, ht, hd, hlt]
    · by_cases hle : tsLe ts tt
      · simp [proj, applyDataEntry, kstep, updateFn, ht, hle]
      · rcases hd : s.data k with - | ⟨v0, ts0⟩
        · simp [proj, applyDataEntry, kstep, updateFn, ht, hd, hle]
        · by_cases hlt : tsLt ts0 ts <;>
            simp [proj, applyDataEntry, kstep, updateFn, ht, hd, hle, hlt]
  · rcases ht : s.tombstones key with - | tt
    · rcases hd : s.data key with - | ⟨v0, ts0⟩
      · simp [proj, applyDataEntry, updateFn, ht, hd, hk]
      · by_cases hlt : tsLt ts0 ts <;>
          simp [proj, applyDataEntry, updateFn, ht, hd, hk, hlt]
    · by_cases hle : tsLe ts tt
      · simp [proj, applyDataEntry, updateFn, ht, hle, hk]
      · rcases hd : s.data key with - | ⟨v0, ts0⟩
        · simp [proj, applyDataEntry, updateFn, ht, hd, hle, hk]
        · by_cases hlt : tsLt ts0 ts <;>
            simp [proj, applyDataEntry, updateFn, ht, hd, hle, hk, hlt]

theorem proj_tombFold {V : Type} :
    ∀ (l : List (String × Timestamp)) (s : LWWMap V) (k : String),
      proj (l.foldl (fun acc kt => applyTombEntry acc kt.1 kt.2) s) k =
        kapply (l.filterMap fun kt =>
          if k = kt.1 then some (KOp.sdel kt.2) else none) (proj s k) := by
  intro l
  induction l with
  | nil => intro s k; rfl
  | cons kt rest ih =>
      intro s k
      simp only [List.foldl_cons, List.filterMap_cons]
      rw [ih, proj_applyTombEntry]
      by_cases hk : k = kt.1
      · simp [hk, kapply]
      · simp [hk, kapply]

theorem proj_dataFold {V : Type} :
    ∀ (l : List (String × V × Timestamp)) (s : LWWMap V) (k : String),
      proj (l.foldl (fun acc kd => applyDataEntry acc kd.1 kd.2.1 kd.2.2) s) k =
        kapply (l.filterMap fun kd =>
          if k = kd.1 then some (KOp.sput kd.2.1 kd.2.2) else none) (proj s k) := by
  intro l
  induction l with
  | nil => intro s k; rfl
  | cons kd rest ih =>
      intro s k
      simp only [List.foldl_cons, List.filterMap_cons]
      rw [ih, proj_applyDataEntry]
      by_cases hk : k = kd.1
      · simp [hk, kapply]
      · simp [hk, kapply]

theorem proj_merge_state {V : Type} (s : LWWMap V) (o : Snapshot V) (k : String) :
    proj (s.merge_state o) k =
      kapply (stepOps s (Event.mergeState o) k) (proj s k) := by
  have hclock : proj { s with clock := max s.clock o.clock + 1 } k = proj s k := rfl
  unfold LWWMap.merge_state stepOps kapply
  rw [List.foldl_append]
  rw [show (o.dataL.foldl (fun acc kd => applyDataEntry acc kd.1 kd.2.1 kd.2.2)
      (o.tombL.foldl (fun acc kt => applyTombEntry acc kt.1 kt.2)
        { s with clock := max s.clock o.clock + 1 })) =
    (o.dataL.foldl (fun acc kd => applyDataEntry acc kd.1 kd.2.1 kd.2.2)
      (o.tombL.foldl (fun acc kt => applyTombEntry acc kt.1 kt.2)
        { s with clock := max s.clock o.clock + 1 })) from rfl]
  rw [proj_dataFold, proj_tombFold, hclock]
  rfl

theorem proj_applyEvent {V : Type} (s : LWWMap V) (e : Event V) (k : String) :
    proj (applyEvent s e) k = kapply (stepOps s e k) (proj s k) := by
  cases e with
  | put key v => exact proj_put s key v k
  | del key => exact proj_delete s key k
  | mergeDelta d =>
      cases d with
      | put key v ts => exact proj_merge_put s key v ts k
      | del key ts => exact proj_merge_del s key ts k
  | mergeState o => exact proj_merge_state s o k

theorem proj_applyEvents {V : Type} :
    ∀ (events : List (Event V)) (s : LWWMap V) (k : String),
      proj (applyEvents s events) k = kapply (genOps s events k) (proj s k) := by
  intro events
  induction events with
  | nil => intro s k; rfl
  | cons e rest ih =>
      intro s k
      show proj (applyEvents (applyEvent s e) rest) k =
        kapply (stepOps s e k ++ genOps (applyEvent s e) rest k) (proj s k)
      rw [ih, proj_applyEvent]
      simp [kapply, List.foldl_append]

/-- Well-formed exchange: a snapshot's clock dominates the logical times of
all its entries (true of every snapshot produced by `to_dict`, since a
replica's clock dominates every timestamp it stores). -/
def WFEvent {V : Type} : Event V → Prop
  | .mergeState o =>
      (∀ kt ∈ o.tombL, kt.2.logical_time ≤ o.clock) ∧
        (∀ kd ∈ o.dataL, kd.2.2.logical_time ≤ o.clock)
  | _ => True

theorem clock_applyTombEntry {V : Type} (s : LWWMap V) (key : String)
    (ts : Timestamp) : (applyTombEntry s key ts).clock = s.clock := rfl

theorem clock_applyDataEntry {V : Type} (s : LWWMap V) (key : String) (v : V)
    (ts : Timestamp) : (applyDataEntry s key v ts).clock = s.clock := by
  unfold applyDataEntry
  rcases s.tombstones key with - | tt
  · rcases s.data key with - | ⟨v0, ts0⟩
    · rfl
    · by_cases h : tsLt ts0 ts <;> simp [h]
  · by_cases hle : tsLe ts tt
    · simp [hle]
    · rcases s.data key with - | ⟨v0, ts0⟩
      · simp [hle]
      · by_cases h : tsLt ts0 ts <;> simp [hle, h]

theorem clock_tombFold {V : Type} :
    ∀ (l : List (String × Timestamp)) (s : LWWMap V),
      (l.foldl (fun acc kt => applyTombEntry acc kt.1 kt.2) s).clock = s.clock := by
  intro l
  induction l with
  | nil => intro s; rfl
  | cons kt rest ih =>
      intro s
      simp only [List.foldl_cons]
      rw [ih, clock_applyTombEntry]

theorem clock_dataFold {V : Type} :
    ∀ (l : List (String × V × Timestamp)) (s : LWWMap V),
      (l.foldl (fun acc kd => applyDataEntry acc kd.1 kd.2.1 kd.2.2) s).clock
        = s.clock := by
  intro l
  induction l with
  | nil => intro s; rfl
  | cons kd rest ih =>
      intro s
      simp only [List.foldl_cons]
      rw [ih, clock_applyDataEntry]

theorem clock_merge_state {V : Type} (s : LWWMap V) (o : Snapshot V) :
    (s.merge_state o).clock = max s.clock o.clock + 1 := by
  unfold LWWMap.merge_state
  rw [clock_dataFold, clock_tombFold]

/-- The timestamp carried by a delta. -/
def Delta.tsOf {V : Type} : Delta V → Timestamp
  | .put _ _ ts => ts
  | .del _ ts => ts

theorem clock_merge {V : Type} (s : LWWMap V) (d : Delta V) :
    (s.merge d).clock = max s.clock d.tsOf.logical_time + 1 := by
  cases d with
  | put key v ts =>
      unfold LWWMap.merge Delta.tsOf
      rcases hd : s.data key with - | ⟨v0, ts0⟩
      · simp [hd]
      · by_cases h : tsLt ts0 ts <;> simp [hd, h]
  | del key ts =>
      unfold LWWMap.merge Delta.tsOf
      rcases ht : s.tombstones key with - | tt
      · simp [ht]
      · by_cases h : tsLt tt ts <;> simp [ht, h]

theorem clock_mono_applyEvent {V : Type} (s : LWWMap V) (e : Event V) :
    s.clock ≤ (applyEvent s e).clock := by
  cases e with
  | put key v => show s.clock ≤ s.clock + 1; omega
  | del key => show s.clock ≤ s.clock + 1; omega
  | mergeDelta d =>
      show s.clock ≤ (s.merge d).clock
      rw [clock_merge]
      have := le_max_left s.clock d.tsOf.logical_time
      omega
  | mergeState o =>
      show s.clock ≤ (s.merge_state o).clock
      rw [clock_merge_state]
      have := le_max_left s.clock o.clock
      omega

theorem stepOps_ts_le {V : Type} {s : LWWMap V} {e : Event V} {k : String}
    (hwf : WFEvent e) :
    ∀ op ∈ stepOps s e k, op.ts.logical_time ≤ (applyEvent s e).clock := by
  intro op hop
  cases e with
  | put key v =>
      simp only [stepOps] at hop
      by_cases hk : k = key
      · rw [if_pos hk] at hop
        rcases List.mem_singleton.mp hop with rfl
        show s.clock + 1 ≤ s.clock + 1
        omega
      · rw [if_neg hk] at hop
        exact absurd hop (List.not_mem_nil op)
  | del key =>
      simp only [stepOps] at hop
      by_cases hk : k = key
      · rw [if_pos hk] at hop
        rcases List.mem_singleton.mp hop with rfl
        show s.clock + 1 ≤ s.clock + 1
        omega
      · rw [if_neg hk] at hop
        exact absurd hop (List.not_mem_nil op)
  | mergeDelta d =>
      have hclock : (applyEvent s (Event.mergeDelta d)).clock
          = max s.clock d.tsOf.logical_time + 1 := clock_merge s d
      cases d with
      | put key v ts =>
          simp only [stepOps] at hop
          by_cases hk : k = key
          · rw [if_pos hk] at hop
            rcases List.mem_singleton.mp hop with rfl
            rw [hclock]
            have := le_max_right s.clock ts.logical_time
            simp only [KOp.ts, Delta.tsOf] at *
            omega
          · rw [if_neg hk] at hop
            exact absurd hop (List.not_mem_nil op)
      | del key ts =>
          simp only [stepOps] at hop
          by_cases hk : k = key
          · rw [if_pos hk] at hop
            rcases List.mem_singleton.mp hop with rfl
            rw [hclock]
            have := le_max_right s.clock ts.logical_time
            simp only [KOp.ts, Delta.tsOf] at *
            omega
          · rw [if_neg hk] at hop
            exact absurd hop (List.not_mem_nil op)
  | mergeState o =>
      have hclock : (applyEvent s (Event.mergeState o)).clock
          = max s.clock o.clock + 1 := clock_merge_state s o
      have hmax := le_max_right s.clock o.clock
      simp only [stepOps] at hop
      rcases List.mem_append.mp hop with h | h
      · obtain ⟨kt, hkt, hfk⟩ := List.mem_filterMap.mp h
        by_cases hk : k = kt.1
        · rw [if_pos hk] at hfk
          cases hfk
          have := hwf.1 kt hkt
          rw [hclock]
          simp only [KOp.ts]
          omega
        · rw [if_neg hk] at hfk
          cases hfk
      · obtain ⟨kd, hkd, hfk⟩ := List.mem_filterMap.mp h
        by_cases hk : k = kd.1
        · rw [if_pos hk] at hfk
          cases hfk
          have := hwf.2 kd hkd
          rw [hclock]
          simp only [KOp.ts]
          omega
        · rw [if_neg hk] at hfk
          cases hfk

theorem stepOps_nonlocal_mergeDelta {V : Type} {s : LWWMap V} {d : Delta V}
    {k : String} :
    ∀ op ∈ stepOps s (Event.mergeDelta d) k, op.isLocal = false := by
  intro op hop
  cases d with
  | put key v ts =>
      simp only [stepOps] at hop
      by_cases hk : k = key
      · rw [if_pos hk] at hop
        rcases List.mem_singleton.mp hop with rfl
        rfl
      · rw [if_neg hk] at hop
        exact absurd hop (List.not_mem_nil op)
  | del key ts =>
      simp only [stepOps] at hop
      by_cases hk : k = key
      · rw [if_pos hk] at hop
        rcases List.mem_singleton.mp hop with rfl
        rfl
      · rw [if_neg hk] at hop
        exact absurd hop (List.not_mem_nil op)

theorem stepOps_nonlocal_mergeState {V : Type} {s : LWWMap V} {o : Snapshot V}
    {k : String} :
    ∀ op ∈ stepOps s (Event.mergeState o) k, op.isLocal = false := by
  intro op hop
  simp only [stepOps] at hop
  rcases List.mem_append.mp hop with h | h
  · obtain ⟨kt, hkt, hfk⟩ := List.mem_filterMap.mp h
    by_cases hk : k = kt.1
    · rw [if_pos hk] at hfk
      cases hfk
      rfl
    · rw [if_neg hk] at hfk
      cases hfk
  · obtain ⟨kd, hkd, hfk⟩ := List.mem_filterMap.mp h
    by_cases hk : k = kd.1
    · rw [if_pos hk] at hfk
      cases hfk
      rfl
    · rw [if_neg hk] at hfk
      cases hfk

theorem pairwise_of_nonlocal {V : Type} {l : List (KOp V)}
    (h : ∀ op ∈ l, op.isLocal = false) :
    l.Pairwise fun a b => b.isLocal = true → tsLt a.ts b.ts := by
  induction l with
  | nil => exact List.Pairwise.nil
  | cons x xs ih =>
      refine List.Pairwise.cons ?_ (ih fun op hop => h op (List.mem_cons_of_mem x hop))
      intro b hb hloc
      rw [h b (List.mem_cons_of_mem x hb)] at hloc
      cases hloc

theorem genOps_fresh_aux {V : Type} :
    ∀ (events : List (Event V)) (s : LWWMap V) (k : String) (pre : List (KOp V)),
      (∀ e ∈ events, WFEvent e) →
      pre.Pairwise (fun a b => b.isLocal = true → tsLt a.ts b.ts) →
      (∀ op ∈ pre, op.ts.logical_time ≤ s.clock) →
      (pre ++ genOps s events k).Pairwise
        fun a b => b.isLocal = true → tsLt a.ts b.ts := by
  intro events
  induction events with
  | nil =>
      intro s k pre hwf hpw hdom
      simpa [genOps] using hpw
  | cons e rest ih =>
      intro s k pre hwf hpw hdom
      have hwfe : WFEvent e := hwf e (List.mem_cons_self e rest)
      have hwfr : ∀ e' ∈ rest, WFEvent e' := fun e' he' =>
        hwf e' (List.mem_cons_of_mem e he')
      have hstep_pw : (stepOps s e k).Pairwise
          (fun a b => b.isLocal = true → tsLt a.ts b.ts) := by
        cases e with
        | put key v =>
            by_cases hk : k = key <;>
              simp [stepOps, hk]
        | del key =>
            by_cases hk : k = key <;>
              simp [stepOps, hk]
        | mergeDelta d => exact pairwise_of_nonlocal stepOps_nonlocal_mergeDelta
        | mergeState o => exact pairwise_of_nonlocal stepOps_nonlocal_mergeState
      have hcross : ∀ a ∈ pre, ∀ b ∈ stepOps s e k,
          b.isLocal = true → tsLt a.ts b.ts := by
        intro a ha b hb hloc
        cases e with
        | put key v =>
            simp only [stepOps] at hb
            by_cases hk : k = key
            · rw [if_pos hk] at hb
              rcases List.mem_singleton.mp hb with rfl
              exact Or.inl (show a.ts.logical_time < s.clock + 1 by
                have := hdom a ha; omega)
            · rw [if_neg hk] at hb
              exact absurd hb (List.not_mem_nil b)
        | del key =>
            simp only [stepOps] at hb
            by_cases hk : k = key
            · rw [if_pos hk] at hb
              rcases List.mem_singleton.mp hb with rfl
              exact Or.inl (show a.ts.logical_time < s.clock + 1 by
                have := hdom a ha; omega)
            · rw [if_neg hk] at hb
              exact absurd hb (List.not_mem_nil b)
        | mergeDelta d =>
            rw [stepOps_nonlocal_mergeDelta b hb] at hloc
            cases hloc
        | mergeState o =>
            rw [stepOps_nonlocal_mergeState b hb] at hloc
            cases hloc
      have hpw' : (pre ++ stepOps s e k).Pairwise
          (fun a b => b.isLocal = true → tsLt a.ts b.ts) :=
        List.pairwise_append.mpr ⟨hpw, hstep_pw, hcross⟩
      have hdom' : ∀ op ∈ pre ++ stepOps s e k,
          op.ts.logical_time ≤ (applyEvent s e).clock := by
        intro op hop
        rcases List.mem_append.mp hop with h | h
        · exact le_trans (hdom op h) (clock_mono_applyEvent s e)
        · exact stepOps_ts_le hwfe op h
      have := ih (applyEvent s e) k (pre ++ stepOps s e k) hwfr hpw' hdom'
      rw [List.append_assoc] at this
      exact this

/-- From the initial state, the generated per-key history of a well-formed
event list is locally fresh. -/
theorem genOps_fresh {V : Type} {events : List (Event V)} {r : String}
    {k : String} (hwf : ∀ e ∈ events, WFEvent e) :
    LocalFresh (genOps (LWWMap.init V r) events k) := by
  have := genOps_fresh_aux events (LWWMap.init V r) k [] hwf
    List.Pairwise.nil (by intro op hop; exact absurd hop (List.not_mem_nil op))
  simpa [LocalFresh] using this

/--
C1 (amended): observable convergence of `LWWMap`.  Two replicas each apply
an arbitrary history of local puts and deletes, merges of single-operation
deltas, and merges of state snapshots.  If the two histories observe the
same set of per-key units (puts `(v, ts)` and tombstones `ts` — "the same
set of deltas"), snapshots carry clocks dominating their entries, and
timestamps are not reused (`Hygiene`; guaranteed on real replicas by the
replica-unique ids inside timestamps and the strictly increasing clocks),
then `get` agrees on every key.  The claim's stronger conclusion — equality
of the `data` and `tombstones` maps — is refuted by
`C1_counterexample_states_differ`.
-/
theorem lwwmap_get_convergence {V : Type} (r1 r2 : String)
    (L1 L2 : List (Event V))
    (hwf1 : ∀ e ∈ L1, WFEvent e) (hwf2 : ∀ e ∈ L2, WFEvent e)
    (hhyg : ∀ k, Hygiene
      (genOps (LWWMap.init V r1) L1 k ++ genOps (LWWMap.init V r2) L2 k))
    (hmem : ∀ (k : String) (u : KUnit V),
      (∃ op ∈ genOps (LWWMap.init V r1) L1 k, op.unit = u) ↔
        (∃ op ∈ genOps (LWWMap.init V r2) L2 k, op.unit = u)) :
    ∀ k, (applyEvents (LWWMap.init V r1) L1).get k
        = (applyEvents (LWWMap.init V r2) L2).get k := by
  intro k
  have h1 : (applyEvents (LWWMap.init V r1) L1).get k
      = kget (kapply (genOps (LWWMap.init V r1) L1 k) ((none, none) : KState V)) := by
    show kget (proj (applyEvents (LWWMap.init V r1) L1) k) = _
    rw [proj_applyEvents]
    rfl
  have h2 : (applyEvents (LWWMap.init V r2) L2).get k
      = kget (kapply (genOps (LWWMap.init V r2) L2 k) ((none, none) : KState V)) := by
    show kget (proj (applyEvents (LWWMap.init V r2) L2) k) = _
    rw [proj_applyEvents]
    rfl
  rw [h1, h2]
  exact kget_converges (hhyg k) (genOps_fresh hwf1) (genOps_fresh hwf2) (hmem k)

/-- C1, counterexample to the claim as stated: after observing the same two
deltas — `put("k", 1)` at `("A", 5)` and `delete("k")` at `("B", 5)` — in the
two possible orders, the two replicas' `data` maps differ at `"k"`: the
replica that merged the put first has the entry purged by the delete, while
the replica that merged the delete first retains a shadowed entry.  So equal
observed delta sets do not make the `data`/`tombstones` state equal. -/
theorem C1_counterexample_states_differ :
    (((LWWMap.init Nat "C").merge (Delta.put "k" 1 ⟨"A", 5⟩)).merge
        (Delta.del "k" ⟨"B", 5⟩)).data "k"
      ≠ (((LWWMap.init Nat "C").merge (Delta.del "k" ⟨"B", 5⟩)).merge
        (Delta.put "k" 1 ⟨"A", 5⟩)).data "k" := by
  decide

/-- C1, witness for `lwwmap_get_convergence` at the counterexample's input:
the two replicas that merged the same put and delete deltas in opposite
orders agree on `get "k"` (both `none`), even though their `data` maps
differ. -/
theorem C1_witness :
    (applyEvents (LWWMap.init Nat "C")
        [Event.mergeDelta (Delta.put "k" 1 ⟨"A", 5⟩),
         Event.mergeDelta (Delta.del "k" ⟨"B", 5⟩)]).get "k"
      = (applyEvents (LWWMap.init Nat "C")
        [Event.mergeDelta (Delta.del "k" ⟨"B", 5⟩),
         Event.mergeDelta (Delta.put "k" 1 ⟨"A", 5⟩)]).get "k" := by
  refine lwwmap_get_convergence "C" "C" _ _ ?_ ?_ ?_ ?_ "k"
  · intro e he
    rcases List.mem_cons.mp he with rfl | he
    · trivial
    · rcases List.mem_singleton.mp he with rfl
      trivial
  · intro e he
    rcases List.mem_cons.mp he with rfl | he
    · trivial
    · rcases List.mem_singleton.mp he with rfl
      trivial
  · intro k
    have hunits : ∀ op ∈ genOps (LWWMap.init Nat "C")
          [Event.mergeDelta (Delta.put "k" 1 ⟨"A", 5⟩),
           Event.mergeDelta (Delta.del "k" ⟨"B", 5⟩)] "k"
        ++ genOps (LWWMap.init Nat "C")
          [Event.mergeDelta (Delta.del "k" ⟨"B", 5⟩),
           Event.mergeDelta (Delta.put "k" 1 ⟨"A", 5⟩)] "k",
        op.unit = KUnit.uput 1 ⟨"A", 5⟩ ∨ op.unit = KUnit.udel ⟨"B", 5⟩ := by
      decide
    constructor
    · intro v1 ts1 v2 ts2 h1 h2 he
      obtain ⟨op1, hop1, hu1⟩ := h1
      obtain ⟨op2, hop2, hu2⟩ := h2
      by_cases hk : k = "k"
      · subst hk
        rcases hunits op1 hop1 with h | h <;> rw [hu1] at h <;>
          rcases hunits op2 hop2 with h' | h' <;> rw [hu2] at h' <;>
          simp_all
      · simp [genOps, stepOps, applyEvent, hk] at hop1
    · intro v ts ts' h1 h2
      obtain ⟨op1, hop1, hu1⟩ := h1
      obtain ⟨op2, hop2, hu2⟩ := h2
      by_cases hk : k = "k"
      · subst hk
        rcases hunits op1 hop1 with h | h <;> rw [hu1] at h <;>
          rcases hunits op2 hop2 with h' | h' <;> rw [hu2] at h' <;>
          simp_all
      · simp [genOps, stepOps, applyEvent, hk] at hop1
  · intro k u
    by_cases hk : k = "k" <;>
      simp [hk, genOps, stepOps, applyEvent, KOp.unit] <;> tauto

/-- C3, counterexample to the claim as stated: after `put("k", 1)` (timestamp
`("A", 1)`) and `delete("k")` (timestamp `("A", 2)`), the entry's timestamp
is ≤ the new tombstone's, yet `delete` left the entry in `data` — the
claimed removal does not happen (`LWWMap.delete` only records the tombstone;
the entry is merely shadowed). -/
theorem C3_counterexample_entry_not_removed :
    tsLe (⟨"A", 1⟩ : Timestamp) ⟨"A", 2⟩ ∧
    ((((LWWMap.init Nat "A").put "k" 1).1.delete "k").1).tombstones "k"
      = some ⟨"A", 2⟩ ∧
    ((((LWWMap.init Nat "A").put "k" 1).1.delete "k").1).data "k"
      = some (1, ⟨"A", 1⟩) := by
  decide

/-- C3 (amended): `delete(k)` strictly increments the local clock and records
a tombstone for `k` at the new timestamp `(replica_id, clock + 1)` (also
emitted in the delta); it leaves the `data` map and the other keys'
tombstones unchanged, and afterwards `get(k)` returns `none` whenever the
entry's timestamp is ≤ the new tombstone's. -/
theorem LWWMap_delete_spec {V : Type} (s : LWWMap V) (k : String) :
    ((s.delete k).1.clock = s.clock + 1) ∧
    ((s.delete k).2 = Delta.del k ⟨s.replica_id, s.clock + 1⟩) ∧
    ((s.delete k).1.tombstones k = some ⟨s.replica_id, s.clock + 1⟩) ∧
    ((s.delete k).1.data = s.data) ∧
    (∀ k', k' ≠ k → (s.delete k).1.tombstones k' = s.tombstones k') ∧
    (∀ v ts, s.data k = some (v, ts) → tsLe ts ⟨s.replica_id, s.clock + 1⟩ →
      (s.delete k).1.get k = none) := by
  refine ⟨rfl, rfl, by simp [LWWMap.delete, updateFn], rfl, ?_, ?_⟩
  · intro k' hk'
    simp [LWWMap.delete, updateFn, hk']
  · intro v ts hd hle
    simp [LWWMap.delete, LWWMap.get, kget, updateFn, hd, hle]

/-- C3, witness for `LWWMap_delete_spec`: on the concrete state holding
`"k" ↦ (1, ("A", 1))`, deleting `"k"` makes `get "k"` return `none`. -/
theorem LWWMap_delete_spec_witness :
    ((((LWWMap.init Nat "A").put "k" 1).1.delete "k").1).get "k" = none :=
  (LWWMap_delete_spec ((LWWMap.init Nat "A").put "k" 1).1 "k").2.2.2.2.2
    1 ⟨"A", 1⟩ (by decide) (by decide)

/-- C7: timestamps are totally ordered by the lexicographic comparison of
`(logical_time, replica_id)` (first conjunct: `tsLt` is that comparison by
definition; then trichotomy, irreflexivity, transitivity), and for two
concurrent puts of the same key at the same logical time from replicas with
`r1 < r2`, a replica that merges both deltas — in either order — retains the
value written by the replica with the greater replica-id string. -/
theorem timestamp_total_order_tiebreak :
    (∀ a b : Timestamp, tsLt a b ↔ (a.logical_time < b.logical_time ∨
      (a.logical_time = b.logical_time ∧ a.replica_id < b.replica_id))) ∧
    (∀ a b : Timestamp, tsLt a b ∨ a = b ∨ tsLt b a) ∧
    (∀ a : Timestamp, ¬ tsLt a a) ∧
    (∀ a b c : Timestamp, tsLt a b → tsLt b c → tsLt a c) ∧
    (∀ (V : Type) (s : LWWMap V) (k : String) (v1 v2 : V) (t : Int)
        (r1 r2 : String), r1 < r2 → s.data k = none → s.tombstones k = none →
      ((s.merge (Delta.put k v1 ⟨r1, t⟩)).merge (Delta.put k v2 ⟨r2, t⟩)).get k
          = some v2 ∧
      ((s.merge (Delta.put k v2 ⟨r2, t⟩)).merge (Delta.put k v1 ⟨r1, t⟩)).get k
          = some v2) := by
  refine ⟨fun a b => Iff.rfl, ts_trichotomy, tsLt_irrefl, fun a b c => tsLt_trans, ?_⟩
  intro V s k v1 v2 t r1 r2 hr hd ht
  have h12 : tsLt ⟨r1, t⟩ ⟨r2, t⟩ := Or.inr ⟨rfl, hr⟩
  have h21 : ¬ tsLt ⟨r2, t⟩ ⟨r1, t⟩ := tsLt_asymm h12
  constructor
  · simp [LWWMap.merge, LWWMap.get, kget, updateFn, hd, ht, h12]
  · simp [LWWMap.merge, LWWMap.get, kget, updateFn, hd, ht, h21]

/-- C7, witness for `timestamp_total_order_tiebreak`: concurrent
`put("k", 1)` from `"A"` and `put("k", 2)` from `"B"` at logical time 7; in
both merge orders the survivor is `"B"`'s value 2. -/
theorem timestamp_total_order_tiebreak_witness :
    (((LWWMap.init Nat "C").merge (Delta.put "k" 1 ⟨"A", 7⟩)).merge
        (Delta.put "k" 2 ⟨"B", 7⟩)).get "k" = some 2 ∧
    (((LWWMap.init Nat "C").merge (Delta.put "k" 2 ⟨"B", 7⟩)).merge
        (Delta.put "k" 1 ⟨"A", 7⟩)).get "k" = some 2 :=
  timestamp_total_order_tiebreak.2.2.2.2 Nat (LWWMap.init Nat "C") "k" 1 2 7
    "A" "B" (by rw [String.lt_iff_toList_lt]; decide) rfl rfl

/-!
## `PNCounter`

`P` and `N` are dictionaries replica-id → count, modelled as total functions
defaulting to 0 (matching `dict.get(rid, 0)` in `merge`).  `value()` sums
the entries of the dictionaries; the summation is taken over an explicit
list of replica ids (the dictionary's key set). -/

/-- `PNCounter` state from `src/fl/crdt.py`. -/
structure PNCounter where
  replica_id : String
  P : String → Nat
  N : String → Nat

/-- `PNCounter.__init__`: both maps start at zero. -/
def PNCounter.init (rid : String) : PNCounter :=
  ⟨rid, fun _ => 0, fun _ => 0⟩

/-- `PNCounter.increment`: `P[replica_id] += 1`. -/
def PNCounter.increment (c : PNCounter) : PNCounter :=
  { c with P := fun r => if r = c.replica_id then c.P r + 1 else c.P r }

/-- `PNCounter.decrement`: `N[replica_id] += 1`. -/
def PNCounter.decrement (c : PNCounter) : PNCounter :=
  { c with N := fun r => if r = c.replica_id then c.N r + 1 else c.N r }

/-- `PNCounter.value` over the key set `R`: `sum(P.values()) - sum(N.values())`. -/
def PNCounter.value (c : PNCounter) (R : List String) : Int :=
  (R.map fun r => (c.P r : Int)).sum - (R.map fun r => (c.N r : Int)).sum

/-- `PNCounter.merge`: element-wise max of both maps against the other
state's `P` and `N` dictionaries. -/
def PNCounter.merge (c : PNCounter) (otherP otherN : String → Nat) : PNCounter :=
  { c with
      P := fun r => max (c.P r) (otherP r)
      N := fun r => max (c.N r) (otherN r) }

/-- `n` successive increments. -/
def PNCounter.incN (c : PNCounter) : Nat → PNCounter
  | 0 => c
  | n + 1 => (c.incN n).increment

/-- `n` successive decrements. -/
def PNCounter.decN (c : PNCounter) : Nat → PNCounter
  | 0 => c
  | n + 1 => (c.decN n).decrement

theorem incN_replica_id (a : String) :
    ∀ n, ((PNCounter.init a).incN n).replica_id = a := by
  intro n
  induction n with
  | zero => rfl
  | succ n ih => exact ih

theorem incN_P (a : String) (r : String) :
    ∀ n, ((PNCounter.init a).incN n).P r = if r = a then n else 0 := by
  intro n
  induction n with
  | zero => simp [PNCounter.incN, PNCounter.init]
  | succ n ih =>
      by_cases hr : r = a
      · subst hr
        simp [PNCounter.incN, PNCounter.increment, incN_replica_id, ih]
      · simp [PNCounter.incN, PNCounter.increment, incN_replica_id, hr, ih]

theorem incN_N (a : String) (r : String) :
    ∀ n, ((PNCounter.init a).incN n).N r = 0 := by
  intro n
  induction n with
  | zero => rfl
  | succ n ih => simpa [PNCounter.incN, PNCounter.increment] using ih

theorem decN_P (c : PNCounter) (r : String) :
    ∀ n, (c.decN n).P r = c.P r := by
  intro n
  induction n with
  | zero => rfl
  | succ n ih => simpa [PNCounter.decN, PNCounter.decrement] using ih

theorem decN_replica_id (c : PNCounter) :
    ∀ n, (c.decN n).replica_id = c.replica_id := by
  intro n
  induction n with
  | zero => rfl
  | succ n ih => exact ih

theorem decN_N (c : PNCounter) (r : String) :
    ∀ n, (c.decN n).N r = if r = c.replica_id then c.N r + n else c.N r := by
  intro n
  induction n with
  | zero => simp [PNCounter.decN]
  | succ n ih =>
      by_cases hr : r = c.replica_id
      · subst hr
        simp [PNCounter.decN, PNCounter.decrement, decN_replica_id, ih]
        omega
      · simp [PNCounter.decN, PNCounter.decrement, decN_replica_id, hr, ih]

/-- C8: `PNCounter.merge` is commutative, associative and idempotent
(element-wise max of both maps), and after two replicas with distinct ids
exchange their full states — one having done `ia` increments and `da`
decrements, the other `ib` and `db` — both report the same value
`(ia + ib) − (da + db)`, the total increments minus total decrements. -/
theorem pncounter_merge_spec :
    (∀ c1 c2 : PNCounter,
      (c1.merge c2.P c2.N).P = (c2.merge c1.P c1.N).P ∧
      (c1.merge c2.P c2.N).N = (c2.merge c1.P c1.N).N) ∧
    (∀ (c : PNCounter) (P1 N1 P2 N2 : String → Nat),
      ((c.merge P1 N1).merge P2 N2).P
          = (c.merge (fun r => max (P1 r) (P2 r)) (fun r => max (N1 r) (N2 r))).P ∧
      ((c.merge P1 N1).merge P2 N2).N
          = (c.merge (fun r => max (P1 r) (P2 r)) (fun r => max (N1 r) (N2 r))).N) ∧
    (∀ c : PNCounter, (c.merge c.P c.N).P = c.P ∧ (c.merge c.P c.N).N = c.N) ∧
    (∀ (a b : String) (ia da ib db : Nat), a ≠ b →
      (((((PNCounter.init a).incN ia).decN da).merge
          ((((PNCounter.init b).incN ib).decN db)).P
          ((((PNCounter.init b).incN ib).decN db)).N).value [a, b]
        = (ia + ib : Int) - (da + db)) ∧
      (((((PNCounter.init b).incN ib).decN db).merge
          ((((PNCounter.init a).incN ia).decN da)).P
          ((((PNCounter.init a).incN ia).decN da)).N).value [a, b]
        = (ia + ib : Int) - (da + db))) := by
  refine ⟨?_, ?_, ?_, ?_⟩
  · intro c1 c2
    constructor <;> funext r <;> simp [PNCounter.merge, Nat.max_comm]
  · intro c P1 N1 P2 N2
    constructor <;> funext r <;> simp [PNCounter.merge, Nat.max_assoc]
  · intro c
    constructor <;> funext r <;> simp [PNCounter.merge]
  · intro a b ia da ib db hab
    have hba : ¬ (b = a) := fun h => hab h.symm
    have hab' : ¬ (a = b) := hab
    constructor <;>
      simp [PNCounter.value, PNCounter.merge, decN_P, decN_N, incN_P, incN_N,
        incN_replica_id, decN_replica_id, hab', hba] <;>
      omega

/-- C8, witness for `pncounter_merge_spec`: replicas `"A"` (3 increments,
1 decrement) and `"B"` (2 increments, 2 decrements) both report value 2
after the exchange. -/
theorem pncounter_merge_spec_witness :
    (((((PNCounter.init "A").incN 3).decN 1).merge
        (((PNCounter.init "B").incN 2).decN 2).P
        (((PNCounter.init "B").incN 2).decN 2).N).value ["A", "B"] = 2) ∧
    (((((PNCounter.init "B").incN 2).decN 2).merge
        (((PNCounter.init "A").incN 3).decN 1).P
        (((PNCounter.init "A").incN 3).decN 1).N).value ["A", "B"] = 2) := by
  have h := pncounter_merge_spec.2.2.2 "A" "B" 3 1 2 2 (by decide)
  exact ⟨by rw [h.1]; decide, by rw [h.2]; decide⟩

/-!
## `federated_averaging` (`src/fl/model.py`)

Weight dictionaries `{'W': ndarray, 'b': ndarray}` are modelled as a pair of
functions over abstract index types with exact rational entries; `n_samples`
is an `Int`.  The Python function raises `ValueError` on an empty list and
hits a `ZeroDivisionError` in `num_samples / total_samples` when the list is
non-empty but the sample total is zero; both are modelled as `Except`
errors.  Otherwise it accumulates `factor * W_i` into a zero-initialised
accumulator (`np.zeros_like`), which we model as a fold. -/

inductive FedAvgError where
  | valueError
  | zeroDivisionError
deriving DecidableEq, Repr

/-- Loop body of `federated_averaging`: add `factor * W` and `factor * b`
into the accumulator, with `factor = num_samples / total_samples`. -/
def fedavgStep {ι κ : Type} (total : Int) (acc : (ι → ℚ) × (κ → ℚ))
    (u : (ι → ℚ) × (κ → ℚ) × Int) : (ι → ℚ) × (κ → ℚ) :=
  (fun i => acc.1 i + (u.2.2 : ℚ) / (total : ℚ) * u.1 i,
   fun j => acc.2 j + (u.2.2 : ℚ) / (total : ℚ) * u.2.1 j)

/-- `federated_averaging` from `src/fl/model.py`. -/
def federated_averaging {ι κ : Type} (weight_updates : List ((ι → ℚ) × (κ → ℚ) × Int)) :
    Except FedAvgError ((ι → ℚ) × (κ → ℚ)) :=
  match weight_updates with
  | [] => .error .valueError
  | _ :: _ =>
      let total : Int := (weight_updates.map fun u => u.2.2).sum
      if total = 0 then .error .zeroDivisionError
      else
        .ok (weight_updates.foldl (fedavgStep total) (fun _ => 0, fun _ => 0))

theorem fedavg_fold_fst {ι κ : Type} (total : Int) :
    ∀ (l : List ((ι → ℚ) × (κ → ℚ) × Int)) (acc : (ι → ℚ) × (κ → ℚ)) (i : ι),
      (l.foldl (fedavgStep total) acc).1 i
        = acc.1 i + (l.map fun u => (u.2.2 : ℚ) / (total : ℚ) * u.1 i).sum := by
  intro l
  induction l with
  | nil => intro acc i; simp
  | cons u rest ih =>
      intro acc i
      simp only [List.foldl_cons, List.map_cons, List.sum_cons]
      rw [ih]
      simp only [fedavgStep]
      ring

theorem fedavg_fold_snd {ι κ : Type} (total : Int) :
    ∀ (l : List ((ι → ℚ) × (κ → ℚ) × Int)) (acc : (ι → ℚ) × (κ → ℚ)) (j : κ),
      (l.foldl (fedavgStep total) acc).2 j
        = acc.2 j + (l.map fun u => (u.2.2 : ℚ) / (total : ℚ) * u.2.1 j).sum := by
  intro l
  induction l with
  | nil => intro acc j; simp
  | cons u rest ih =>
      intro acc j
      simp only [List.foldl_cons, List.map_cons, List.sum_cons]
      rw [ih]
      simp only [fedavgStep]
      ring

/-- C5: `federated_averaging` errors whenever the sample total `Σ nᵢ` is 0 —
`ValueError` on the empty list, `ZeroDivisionError` on a non-empty list with
zero total — and on any input with `Σ nᵢ > 0` it returns exactly
`W̄ = Σ (nᵢ/N)·Wᵢ` and `b̄ = Σ (nᵢ/N)·bᵢ` with `N = Σ nᵢ`. -/
theorem federated_averaging_spec {ι κ : Type}
    (updates : List ((ι → ℚ) × (κ → ℚ) × Int)) :
    (federated_averaging ([] : List ((ι → ℚ) × (κ → ℚ) × Int))
        = .error .valueError) ∧
    ((updates.map fun u => u.2.2).sum = 0 →
      ∃ e, federated_averaging updates = .error e) ∧
    (0 < (updates.map fun u => u.2.2).sum →
      federated_averaging updates = .ok
        ((fun i : ι => (updates.map fun u =>
            (u.2.2 : ℚ) / (((updates.map fun u => u.2.2).sum : Int) : ℚ) * u.1 i).sum),
         (fun j : κ => (updates.map fun u =>
            (u.2.2 : ℚ) / (((updates.map fun u => u.2.2).sum : Int) : ℚ) * u.2.1 j).sum))) := by
  refine ⟨rfl, ?_, ?_⟩
  · intro h0
    cases updates with
    | nil => exact ⟨.valueError, rfl⟩
    | cons u rest =>
        refine ⟨.zeroDivisionError, ?_⟩
        simp only [federated_averaging]
        rw [if_pos h0]
  · intro hpos
    cases updates with
    | nil => simp at hpos
    | cons u rest =>
        have hne : ((u :: rest).map fun u => u.2.2).sum ≠ 0 := by omega
        simp only [federated_averaging]
        rw [if_neg hne]
        congr 1
        refine Prod.ext ?_ ?_ <;> funext x
        · rw [fedavg_fold_fst]
          simp
        · rw [fedavg_fold_snd]
          simp

/-- Concrete input for the C5 witness: two updates over a single-entry
weight vector — weights 2 and 6, biases 4 and 0, sample counts 1 and 3. -/
def fedavgExample : List ((Unit → ℚ) × (Unit → ℚ) × Int) :=
  [((fun _ => 2), (fun _ => 4), 1), ((fun _ => 6), (fun _ => 0), 3)]

/-- C5, witness for `federated_averaging_spec` at `fedavgExample`: the
sample total 4 is positive and the function returns the weighted-sum
formula. -/
theorem federated_averaging_spec_witness :
    (0 : Int) < (fedavgExample.map fun u => u.2.2).sum ∧
    federated_averaging fedavgExample = .ok
      ((fun i : Unit => (fedavgExample.map fun u =>
          (u.2.2 : ℚ) / (((fedavgExample.map fun u => u.2.2).sum : Int) : ℚ) * u.1 i).sum),
       (fun j : Unit => (fedavgExample.map fun u =>
          (u.2.2 : ℚ) / (((fedavgExample.map fun u => u.2.2).sum : Int) : ℚ) * u.2.1 j).sum)) :=
  ⟨by decide, (federated_averaging_spec fedavgExample).2.2 (by decide)⟩

/-!
## `GossipPeer._collect_peer_models` (`src/fl/gossip_peer.py`)

The value stored under a `model/<peer_id>` key is a dictionary with the
encoded weights and an `n_samples` field.  We abstract it as: whether the
value is a dict (`isinstance(val, dict)`), the result of `_decode_weights`
(the decoded `W`/`b` arrays with their shapes, or `none` on failure), and
the `n_samples` entry.  The collection iterates over `lww_map.data.items()`
— the data dictionary, modelled here as an association list — and never
consults the tombstones. -/

/-- Abstraction of a value stored in the LWWMap under a model key. -/
structure PeerModelVal (ι κ : Type) where
  isDict : Bool
  decoded : Option ((ι → ℚ) × (κ → ℚ) × List Nat × List Nat)
  n_samples : Int

/-- `key.startswith(prefix)`: prefix test on the character lists. -/
def strStartsWith (s pre : String) : Bool :=
  pre.toList.isPrefixOf s.toList

/-- `GossipPeer._collect_peer_models`, over the item list of `lww_map.data`
and the local model's `(W.shape, b.shape)`. -/
def collect_peer_models {ι κ : Type} (data : List (String × PeerModelVal ι κ))
    (wShape bShape : List Nat) : List (((ι → ℚ) × (κ → ℚ)) × Int) :=
  data.filterMap fun kv =>
    if ¬ strStartsWith kv.1 "model/" then none
    else if ¬ kv.2.isDict then none
    else
      match kv.2.decoded with
      | none => none
      | some (W, b, ws, bs) =>
          if ws ≠ wShape ∨ bs ≠ bShape then none
          else some ((W, b), if kv.2.n_samples ≤ 0 then 1 else kv.2.n_samples)

/-- A model value whose `n_samples` field is 0 (for the C6 counterexample). -/
def zeroSampleVal : PeerModelVal Unit Unit :=
  ⟨true, some ((fun _ => 3), (fun _ => 4), [1], [1]), 0⟩

/-- C6, counterexample to the claim as stated, on both counts.
First: an entry with `n_samples = 0` (< 1) is collected — with its count
coerced to 1 — rather than contributing nothing.  Second: after a local
`put` then `delete` of `"model/p1"`, the entry is tombstone-shadowed
(`get` returns `none`) yet still present in `data`, and
`_collect_peer_models` (which never consults tombstones) still collects
it. -/
theorem C6_counterexample_collects_coerced_and_shadowed :
    (collect_peer_models [("model/p1", zeroSampleVal)] [1] [1]).length = 1 ∧
    ((collect_peer_models [("model/p1", zeroSampleVal)] [1] [1]).map
        fun p => p.2) = [1] ∧
    ((((LWWMap.init (PeerModelVal Unit Unit) "p1").put "model/p1"
        zeroSampleVal).1.delete "model/p1").1).get "model/p1" = none ∧
    ((((LWWMap.init (PeerModelVal Unit Unit) "p1").put "model/p1"
        zeroSampleVal).1.delete "model/p1").1).data "model/p1"
      = some (zeroSampleVal, ⟨"p1", 1⟩) := by
  refine ⟨rfl, rfl, ?_, ?_⟩
  · simp [LWWMap.init, LWWMap.put, LWWMap.delete, LWWMap.get, kget, updateFn,
      tsLe, tsLt]
  · simp [LWWMap.init, LWWMap.put, LWWMap.delete, updateFn]

/-- C6 (amended): the collected list consists of exactly the data entries
(tombstones are never consulted, so shadowed entries are included) whose key
starts with `"model/"`, whose value is a dict that decodes successfully and
whose decoded shapes match the local model's; each contributes its decoded
weights with sample count `n_samples` when `n_samples ≥ 1` and with the
coerced count 1 when `n_samples ≤ 0`.  The global recomputation then runs
`federated_averaging` over exactly this list. -/
theorem collect_peer_models_spec {ι κ : Type}
    (data : List (String × PeerModelVal ι κ)) (wShape bShape : List Nat)
    (p : ((ι → ℚ) × (κ → ℚ)) × Int) :
    p ∈ collect_peer_models data wShape bShape ↔
      ∃ kv ∈ data, strStartsWith kv.1 "model/" = true ∧ kv.2.isDict = true ∧
        kv.2.decoded = some (p.1.1, p.1.2, wShape, bShape) ∧
        p.2 = if kv.2.n_samples ≤ 0 then 1 else kv.2.n_samples := by
  unfold collect_peer_models
  rw [List.mem_filterMap]
  constructor
  · rintro ⟨kv, hkv, hf⟩
    by_cases h1 : strStartsWith kv.1 "model/"
    · by_cases h2 : kv.2.isDict
      · rcases hd : kv.2.decoded with - | ⟨W, b, ws, bs⟩
        · simp [h1, h2, hd] at hf
        · by_cases h3 : ws ≠ wShape ∨ bs ≠ bShape
          · simp [h1, h2, hd, h3] at hf
          · push_neg at h3
            simp [h1, h2, hd, h3.1, h3.2] at hf
            refine ⟨kv, hkv, by simp [h1], by simp [h2], ?_, ?_⟩
            · rw [hd, ← hf, h3.1, h3.2]
            · rw [← hf]
      · simp [h1, h2] at hf
    · simp [h1] at hf
  · rintro ⟨kv, hkv, h1, h2, hd, hn⟩
    refine ⟨kv, hkv, ?_⟩
    have hp : p = ((p.1.1, p.1.2), p.2) := rfl
    simp [h1, h2, hd, ← hn]

/-- C6, witness for `collect_peer_models_spec`: the entry
`("model/p1", zeroSampleVal)` (shapes `[1]`, `n_samples = 0`) yields the
collected pair with coerced count 1. -/
theorem collect_peer_models_spec_witness :
    ((((fun _ => 3), (fun _ => 4)), 1) :
        ((Unit → ℚ) × (Unit → ℚ)) × Int)
      ∈ collect_peer_models [("model/p1", zeroSampleVal)] [1] [1] :=
  (collect_peer_models_spec [("model/p1", zeroSampleVal)] [1] [1] _).mpr
    ⟨("model/p1", zeroSampleVal), List.mem_singleton.mpr rfl, by decide, rfl,
      rfl, by decide⟩

/-!
## `GossipPeer._update_convergence` and the loop guards
(`src/fl/gossip_peer.py`)

Python floats are modelled as exact rationals plus the three non-finite
values; `<` follows IEEE comparison semantics (every comparison with NaN is
false), and `np.isfinite` distinguishes the constructors. -/

/-- A Python/NumPy float: finite value, ±infinity, or NaN. -/
inductive PyFloat where
  | fin (q : ℚ)
  | inf
  | ninf
  | nan
deriving DecidableEq, Repr

/-- `np.isfinite`. -/
def PyFloat.isfinite : PyFloat → Bool
  | .fin _ => true
  | _ => false

/-- IEEE `<` on floats: NaN compares false with everything. -/
def PyFloat.lt : PyFloat → PyFloat → Bool
  | .fin a, .fin b => decide (a < b)
  | .fin _, .inf => true
  | .ninf, .fin _ => true
  | .ninf, .inf => true
  | _, _ => false

/-- Convergence-tracking state of a gossip peer: the counter, the stored
`last_delta_norm`, and the `stopped` flag. -/
structure PeerConvState where
  convergence_count : Nat
  last_delta_norm : PyFloat
  stopped : Bool
deriving DecidableEq, Repr

/-- `GossipPeer._update_convergence`: coerce a non-finite `delta_norm` to
0.0; increment the counter when it is `< convergence_eps`, reset to 0
otherwise; store the (coerced) value as `last_delta_norm`. -/
def updateConvergence (eps : PyFloat) (s : PeerConvState) (delta_norm : PyFloat) :
    PeerConvState :=
  let dn := if delta_norm.isfinite then delta_norm else .fin 0
  { s with
      convergence_count := if dn.lt eps then s.convergence_count + 1 else 0
      last_delta_norm := dn }

/-- `GossipPeer._is_converged`. -/
def isConverged (patience : Nat) (s : PeerConvState) : Bool :=
  patience ≤ s.convergence_count

/-- The convergence-relevant steps of one `_autonomous_gossip_loop`
iteration: update the counter with the latest `delta_norm`, then stop and
break when converged.  Returns the new state and whether the loop
continues. -/
def gossipIteration (eps : PyFloat) (patience : Nat) (s : PeerConvState) :
    PeerConvState × Bool :=
  let s1 := updateConvergence eps s s.last_delta_norm
  if isConverged patience s1 then ({ s1 with stopped := true }, false)
  else (s1, true)

/-- Guard of `_autonomous_gossip_loop`: `while not self.stopped`. -/
def gossipLoopRuns (s : PeerConvState) : Bool := !s.stopped

/-- Guard of `_autonomous_training_loop`:
`while not self.stopped and self._can_run_more_rounds()`. -/
def trainingLoopRuns (s : PeerConvState) (canRunMore : Bool) : Bool :=
  !s.stopped && canRunMore

/-- C9, counterexample to the claim as stated: with `convergence_eps = 1`
and `delta_norm = +∞`, the claim requires the counter to reset to 0 (since
`∞ < eps` is false), but the code coerces any non-finite `delta_norm` to 0.0
and increments the counter instead. -/
theorem C9_counterexample_nonfinite_increments :
    PyFloat.lt .inf (.fin 1) = false ∧
    (updateConvergence (.fin 1) ⟨0, .inf, false⟩ .inf).convergence_count
      = 1 := by
  refine ⟨rfl, ?_⟩
  norm_num [updateConvergence, PyFloat.isfinite, PyFloat.lt]

/-- C9 (amended): the convergence counter is updated once per gossip-loop
iteration with the latest `delta_norm`, after coercing non-finite values to
0.0: for finite `delta_norm` it increments exactly when
`delta_norm < convergence_eps` and resets to 0 otherwise, while any
non-finite `delta_norm` behaves like 0.0 (incrementing whenever
`0 < convergence_eps`).  When the updated counter reaches
`convergence_patience`, the iteration sets the `stopped` flag and breaks the
gossip loop, and the training loop's guard fails as well. -/
theorem update_convergence_spec (e : ℚ) (patience : Nat) (s : PeerConvState) :
    ((∀ q : ℚ, (updateConvergence (.fin e) s (.fin q)).convergence_count
        = if q < e then s.convergence_count + 1 else 0) ∧
     (∀ dn : PyFloat, dn.isfinite = false →
        (updateConvergence (.fin e) s dn).convergence_count
          = if 0 < e then s.convergence_count + 1 else 0)) ∧
    (∀ dn : PyFloat,
      isConverged patience (updateConvergence (.fin e) s dn) = true →
      patience ≤ (updateConvergence (.fin e) s dn).convergence_count) ∧
    ((gossipIteration (.fin e) patience s).2 = false ↔
      patience ≤ (updateConvergence (.fin e) s s.last_delta_norm).convergence_count) ∧
    ((gossipIteration (.fin e) patience s).2 = false →
      (gossipIteration (.fin e) patience s).1.stopped = true ∧
      gossipLoopRuns (gossipIteration (.fin e) patience s).1 = false ∧
      ∀ canRunMore,
        trainingLoopRuns (gossipIteration (.fin e) patience s).1 canRunMore
          = false) := by
  refine ⟨⟨?_, ?_⟩, ?_, ?_, ?_⟩
  · intro q
    by_cases h : q < e <;>
      simp [updateConvergence, PyFloat.isfinite, PyFloat.lt, h]
  · intro dn hdn
    cases dn with
    | fin q => simp [PyFloat.isfinite] at hdn
    | inf =>
        by_cases h : (0 : ℚ) < e <;>
          simp [updateConvergence, PyFloat.isfinite, PyFloat.lt, h]
    | ninf =>
        by_cases h : (0 : ℚ) < e <;>
          simp [updateConvergence, PyFloat.isfinite, PyFloat.lt, h]
    | nan =>
        by_cases h : (0 : ℚ) < e <;>
          simp [updateConvergence, PyFloat.isfinite, PyFloat.lt, h]
  · intro dn h
    simpa [isConverged] using h
  · constructor
    · intro h2
      unfold gossipIteration at h2
      by_cases hc : isConverged patience
          (updateConvergence (.fin e) s s.last_delta_norm) = true
      · simpa [isConverged] using hc
      · simp [hc] at h2
    · intro hle
      have hc : isConverged patience
          (updateConvergence (.fin e) s s.last_delta_norm) = true := by
        simpa [isConverged] using hle
      unfold gossipIteration
      simp [hc]
  · intro h
    unfold gossipIteration at h ⊢
    by_cases hc : isConverged patience (updateConvergence (.fin e) s s.last_delta_norm) = true
    · simp [hc, gossipLoopRuns, trainingLoopRuns]
    · simp [hc] at h

/-- C9, witness for `update_convergence_spec`: with `eps = 1`,
`patience = 3` and a state holding a counter of 2 and a last finite
`delta_norm` of 0 < eps, the gossip iteration increments the counter to 3,
stops the peer and halts both loops. -/
theorem update_convergence_spec_witness :
    (gossipIteration (.fin 1) 3 ⟨2, .fin 0, false⟩).2 = false ∧
    (gossipIteration (.fin 1) 3 ⟨2, .fin 0, false⟩).1.stopped = true ∧
    trainingLoopRuns (gossipIteration (.fin 1) 3 ⟨2, .fin 0, false⟩).1 true
      = false := by
  have h := update_convergence_spec 1 3 ⟨2, .fin 0, false⟩
  have h2 : (gossipIteration (.fin 1) 3 ⟨2, .fin 0, false⟩).2 = false :=
    h.2.2.1.mpr (by norm_num [updateConvergence, PyFloat.isfinite, PyFloat.lt])
  have h3 := h.2.2.2 h2
  exact ⟨h2, h3.1, h3.2.2 true⟩

/-!
## Provider round barrier (`src/fl/provider.py`)

`ModelUpdate` (from `src/actor/messages.py`) carries `worker_id`, `weights`,
`num_samples` and `metrics` — and no round index.  The provider state keeps
the fields `_handle_model_update` and `_start_round` touch; weights and
metrics are abstract type parameters. -/

/-- The `ModelUpdate` message. -/
structure ModelUpdateMsg (W M : Type) where
  worker_id : String
  weights : W
  num_samples : Int
  metrics : M
deriving DecidableEq

/-- The `AggregateRound` message sent to the aggregator. -/
structure AggregateRoundMsg (W M : Type) where
  round_idx : Int
  weight_updates : List (W × Int)
  train_metrics : List M
deriving DecidableEq

/-- The barrier-relevant provider state. -/
structure ProviderState (W M : Type) where
  num_workers : Nat
  current_round : Int
  training_started : Bool
  training_complete : Bool
  awaiting_aggregation : Bool
  aggregator_present : Bool
  round_weight_updates : List (W × Int)
  round_train_metrics : List M
  pending_aggregate : Option (AggregateRoundMsg W M)
deriving DecidableEq

/-- `Provider._handle_model_update`: append the update unconditionally (no
round or worker-identity check); when the count reaches `num_workers` and no
aggregation is awaited, build the `AggregateRound` — parked as pending if no
aggregator is registered, otherwise marked awaiting and emitted. -/
def handleModelUpdate {W M : Type} (s : ProviderState W M)
    (msg : ModelUpdateMsg W M) :
    ProviderState W M × Option (AggregateRoundMsg W M) :=
  let s1 := { s with
      round_weight_updates := s.round_weight_updates ++ [(msg.weights, msg.num_samples)]
      round_train_metrics := s.round_train_metrics ++ [msg.metrics] }
  if s.num_workers ≤ s1.round_weight_updates.length ∧
      s1.awaiting_aggregation = false then
    let aggMsg : AggregateRoundMsg W M :=
      ⟨s1.current_round, s1.round_weight_updates, s1.round_train_metrics⟩
    if s1.aggregator_present = false then
      ({ s1 with pending_aggregate := some aggMsg }, none)
    else
      ({ s1 with awaiting_aggregation := true, pending_aggregate := some aggMsg },
        some aggMsg)
  else (s1, none)

/-- `Provider._start_round` (barrier-relevant part): reset the round state
unless training is complete. -/
def startRound {W M : Type} (s : ProviderState W M) (round_idx : Int) :
    ProviderState W M :=
  if s.training_complete then s
  else
    { s with
        training_started := true
        current_round := round_idx
        awaiting_aggregation := false
        round_weight_updates := []
        round_train_metrics := [] }

/-- Process a sequence of `ModelUpdate` messages, collecting the emitted
`AggregateRound` messages. -/
def processUpdates {W M : Type} (s : ProviderState W M) :
    List (ModelUpdateMsg W M) → ProviderState W M × List (AggregateRoundMsg W M)
  | [] => (s, [])
  | m :: rest =>
      let step := handleModelUpdate s m
      let tail := processUpdates step.1 rest
      (tail.1, step.2.toList ++ tail.2)

/-- Concrete provider state for the C2 counterexample and witness: 2
expected workers, round 1 freshly started, aggregator registered. -/
def providerExampleState : ProviderState Unit Unit :=
  ⟨2, 1, true, false, false, true, [], [], none⟩

/-- Concrete `ModelUpdate` for the C2 counterexample and witness. -/
def providerExampleMsg : ModelUpdateMsg Unit Unit :=
  ⟨"w1", (), 1, ()⟩

/-- C2, counterexample to the claim as stated: two `ModelUpdate` messages
from the same worker `"w1"` cross the `num_workers = 2` barrier and trigger
an aggregation — the code counts messages, not distinct registered workers
(and `ModelUpdate` carries no round index, so a stale update cannot be, and
is not, discarded; it counts toward the current round's barrier). -/
theorem C2_counterexample_duplicate_worker_triggers :
    ([providerExampleMsg, providerExampleMsg].map fun m => m.worker_id)
      = ["w1", "w1"] ∧
    (processUpdates providerExampleState
        [providerExampleMsg, providerExampleMsg]).2.length = 1 := by
  decide

theorem handleModelUpdate_awaiting {W M : Type} (s : ProviderState W M)
    (m : ModelUpdateMsg W M) (hs : s.awaiting_aggregation = true) :
    (handleModelUpdate s m).2 = none ∧
    (handleModelUpdate s m).1.awaiting_aggregation = true := by
  unfold handleModelUpdate
  simp [hs]

theorem processUpdates_awaiting {W M : Type} :
    ∀ (msgs : List (ModelUpdateMsg W M)) (s : ProviderState W M),
      s.awaiting_aggregation = true →
      (processUpdates s msgs).2 = [] ∧
      (processUpdates s msgs).1.awaiting_aggregation = true := by
  intro msgs
  induction msgs with
  | nil => intro s hs; exact ⟨rfl, hs⟩
  | cons m rest ih =>
      intro s hs
      obtain ⟨h1, h2⟩ := handleModelUpdate_awaiting s m hs
      obtain ⟨h3, h4⟩ := ih (handleModelUpdate s m).1 h2
      refine ⟨?_, h4⟩
      simp [processUpdates, h1, h3]

theorem processUpdates_cons {W M : Type} (s : ProviderState W M)
    (m : ModelUpdateMsg W M) (rest : List (ModelUpdateMsg W M)) :
    processUpdates s (m :: rest) =
      ((processUpdates (handleModelUpdate s m).1 rest).1,
        (handleModelUpdate s m).2.toList
          ++ (processUpdates (handleModelUpdate s m).1 rest).2) := rfl

theorem processUpdates_spec_aux {W M : Type} :
    ∀ (msgs : List (ModelUpdateMsg W M)) (s : ProviderState W M),
      s.aggregator_present = true → s.awaiting_aggregation = false →
      ((processUpdates s msgs).2.length ≤ 1) ∧
      ((processUpdates s msgs).2 ≠ [] ↔
        msgs ≠ [] ∧ s.num_workers ≤ s.round_weight_updates.length + msgs.length) ∧
      (∀ agg ∈ (processUpdates s msgs).2,
        agg.round_idx = s.current_round ∧
        agg.weight_updates.length
          = max s.num_workers (s.round_weight_updates.length + 1)) := by
  intro msgs
  induction msgs with
  | nil =>
      intro s hpres hawait
      refine ⟨by simp [processUpdates], by simp [processUpdates], ?_⟩
      intro agg hagg
      simp [processUpdates] at hagg
  | cons m rest ih =>
      intro s hpres hawait
      by_cases hcond : s.num_workers ≤ s.round_weight_updates.length + 1
      · -- the barrier is crossed now: one emission, then silence
        have hstep : handleModelUpdate s m =
            ({ s with
                round_weight_updates :=
                  s.round_weight_updates ++ [(m.weights, m.num_samples)]
                round_train_metrics := s.round_train_metrics ++ [m.metrics]
                awaiting_aggregation := true
                pending_aggregate := some
                  ⟨s.current_round,
                   s.round_weight_updates ++ [(m.weights, m.num_samples)],
                   s.round_train_metrics ++ [m.metrics]⟩ },
              some ⟨s.current_round,
                s.round_weight_updates ++ [(m.weights, m.num_samples)],
                s.round_train_metrics ++ [m.metrics]⟩) := by
          unfold handleModelUpdate
          rw [if_pos (by simp [hawait]; omega)]
          simp [hpres]
        have hs1 := congrArg Prod.fst hstep
        have he := congrArg Prod.snd hstep
        simp only at hs1 he
        obtain ⟨hrest, -⟩ := processUpdates_awaiting rest
          (handleModelUpdate s m).1 (by rw [hs1])
        have hout : (processUpdates s (m :: rest)).2 =
            [⟨s.current_round,
              s.round_weight_updates ++ [(m.weights, m.num_samples)],
              s.round_train_metrics ++ [m.metrics]⟩] := by
          rw [processUpdates_cons]
          simp [he, hrest]
        refine ⟨by rw [hout]; simp, ?_, ?_⟩
        · rw [hout]
          simp only [ne_eq, List.cons_ne_nil, not_false_eq_true, true_iff]
          refine ⟨by simp, ?_⟩
          simp only [List.length_cons]
          omega
        · intro agg hagg
          rw [hout] at hagg
          rcases List.mem_singleton.mp hagg with rfl
          refine ⟨rfl, ?_⟩
          simp only [List.length_append, List.length_cons, List.length_nil]
          omega
      · -- no emission yet: recurse with one more buffered update
        have hstep : handleModelUpdate s m =
            ({ s with
                round_weight_updates :=
                  s.round_weight_updates ++ [(m.weights, m.num_samples)]
                round_train_metrics := s.round_train_metrics ++ [m.metrics] },
              none) := by
          unfold handleModelUpdate
          rw [if_neg (by simp; omega)]
        have hs1 := congrArg Prod.fst hstep
        have he := congrArg Prod.snd hstep
        simp only at hs1 he
        obtain ⟨ih1, ih2, ih3⟩ := ih (handleModelUpdate s m).1
          (by rw [hs1]; exact hpres) (by rw [hs1]; exact hawait)
        have hout : (processUpdates s (m :: rest)).2 =
            (processUpdates (handleModelUpdate s m).1 rest).2 := by
          rw [processUpdates_cons]
          simp [he]
        have hflen : (handleModelUpdate s m).1.round_weight_updates.length
            = s.round_weight_updates.length + 1 := by
          rw [hs1]; simp
        have hfnw : (handleModelUpdate s m).1.num_workers = s.num_workers := by
          rw [hs1]
        have hfround : (handleModelUpdate s m).1.current_round
            = s.current_round := by
          rw [hs1]
        rw [hflen, hfnw] at ih2 ih3
        rw [hfround] at ih3
        refine ⟨by rw [hout]; exact ih1, ?_, ?_⟩
        · rw [hout, ih2]
          constructor
          · rintro ⟨hne, hb⟩
            refine ⟨by simp, ?_⟩
            simp only [List.length_cons]
            omega
          · rintro ⟨-, hb⟩
            rcases rest with - | ⟨r, rest2⟩
            · simp only [List.length_cons, List.length_nil] at hb
              omega
            · refine ⟨by simp, ?_⟩
              simp only [List.length_cons] at hb ⊢
              omega
        · intro agg hagg
          rw [hout] at hagg
          obtain ⟨hround, hlen⟩ := ih3 agg hagg
          refine ⟨hround, ?_⟩
          rw [hlen]
          omega

/-- C2 (amended): starting from a fresh round (no buffered updates, not
awaiting aggregation) with the aggregator registered, processing any
sequence of `ModelUpdate` messages emits at most one `AggregateRound`; one
is emitted exactly when the number of received messages — counted with
multiplicity, regardless of worker identity, and with no round index on the
message to discard stale updates by — reaches `num_workers`; the emitted
message carries the current round index and `max num_workers 1` buffered
updates. -/
theorem provider_barrier_spec {W M : Type} (s : ProviderState W M)
    (msgs : List (ModelUpdateMsg W M))
    (hpres : s.aggregator_present = true)
    (hawait : s.awaiting_aggregation = false)
    (hempty : s.round_weight_updates = []) :
    ((processUpdates s msgs).2.length ≤ 1) ∧
    ((processUpdates s msgs).2 ≠ [] ↔ msgs ≠ [] ∧ s.num_workers ≤ msgs.length) ∧
    (∀ agg ∈ (processUpdates s msgs).2,
      agg.round_idx = s.current_round ∧
      agg.weight_updates.length = max s.num_workers 1) := by
  obtain ⟨h1, h2, h3⟩ := processUpdates_spec_aux msgs s hpres hawait
  rw [hempty] at h2 h3
  simp only [List.length_nil, Nat.zero_add] at h2 h3
  exact ⟨h1, h2, h3⟩

/-- C2, witness for `provider_barrier_spec` at the counterexample's input:
two updates from the same worker against a 2-worker barrier produce exactly
one aggregation for round 1 carrying both updates. -/
theorem provider_barrier_spec_witness :
    ((processUpdates providerExampleState
        [providerExampleMsg, providerExampleMsg]).2.length ≤ 1) ∧
    ((processUpdates providerExampleState
        [providerExampleMsg, providerExampleMsg]).2 ≠ [] ↔
      ([providerExampleMsg, providerExampleMsg] ≠ []) ∧
        providerExampleState.num_workers
          ≤ [providerExampleMsg, providerExampleMsg].length) ∧
    (∀ agg ∈ (processUpdates providerExampleState
        [providerExampleMsg, providerExampleMsg]).2,
      agg.round_idx = providerExampleState.current_round ∧
      agg.weight_updates.length = max providerExampleState.num_workers 1) :=
  provider_barrier_spec providerExampleState
    [providerExampleMsg, providerExampleMsg] rfl rfl rfl

/-!
## Supervisor health loop (`src/actor/supervisor.py`)

One pass of the `while` body of `_periodic_health_check`, with the outcome
of each `asyncio.wait_for` (ack or timeout) supplied by an oracle
`t : String → Bool` (`true` = timeout).  A child's actor instance identity
is modelled by a generation counter `gen`: restarting creates a fresh
generation under the same `actor_id`.  The class/kwargs recipe stored in
`_restart_map` is an abstract `Spec`. -/

inductive ChildStatus where
  | starting
  | healthy
  | failed
deriving DecidableEq, Repr

/-- The per-child bookkeeping of `_monitored_children`. -/
structure ChildInfo where
  gen : Nat
  status : ChildStatus
  failed_checks : Nat
deriving DecidableEq, Repr

/-- Observable actions of the supervisor. -/
inductive SupEvent (Spec : Type) where
  | ping (cid : String) (gen : Nat)
  | stopOld (cid : String) (gen : Nat)
  | spawn (cid : String) (spec : Spec) (gen : Nat)
deriving DecidableEq

/-- The loop body for one monitored child: failed children are skipped;
otherwise a `HealthPing` is sent and the ack awaited.  On ack: healthy,
counter reset.  On timeout: counter incremented; at 2 the child is
restarted — `context.stop(old ref)`, then `actor_of` with the stored recipe
under the same id, with fresh bookkeeping. -/
def healthCheckChild {Spec : Type} (restart_map : String → Spec) (cid : String)
    (info : ChildInfo) (timedOut : Bool) : ChildInfo × List (SupEvent Spec) :=
  if info.status = .failed then (info, [])
  else if timedOut then
    if 2 ≤ info.failed_checks + 1 then
      (⟨info.gen + 1, .starting, 0⟩,
       [.ping cid info.gen, .stopOld cid info.gen,
        .spawn cid (restart_map cid) (info.gen + 1)])
    else ({ info with failed_checks := info.failed_checks + 1 },
      [.ping cid info.gen])
  else ({ info with status := .healthy, failed_checks := 0 },
    [.ping cid info.gen])

/-- One pass of the health-check loop over all monitored children. -/
def healthCheckIteration {Spec : Type} (restart_map : String → Spec)
    (children : List (String × ChildInfo)) (t : String → Bool) :
    List (String × ChildInfo) × List (SupEvent Spec) :=
  (children.map fun c => (c.1, (healthCheckChild restart_map c.1 c.2 (t c.1)).1),
   children.bind fun c => (healthCheckChild restart_map c.1 c.2 (t c.1)).2)

/-- C4: in one pass of the supervisor's health loop, for every monitored
non-failed child: a `HealthPing` is sent to the child's current instance; a
timeout increments its `failed_checks` counter; and when the counter
reaches 2 the child is restarted — the old instance is stopped and a fresh
instance is created from the stored recipe under the same `actor_id`, with
the per-child action sequence ping, stop, spawn.  An ack resets the counter
and marks the child healthy. -/
theorem supervisor_health_spec {Spec : Type} (restart_map : String → Spec)
    (children : List (String × ChildInfo)) (t : String → Bool) :
    (∀ cid info, (cid, info) ∈ children → info.status ≠ .failed →
      SupEvent.ping cid info.gen ∈ (healthCheckIteration restart_map children t).2) ∧
    (∀ cid info, (cid, info) ∈ children → info.status ≠ .failed →
      t cid = true → info.failed_checks + 1 < 2 →
      (cid, { info with failed_checks := info.failed_checks + 1 })
        ∈ (healthCheckIteration restart_map children t).1) ∧
    (∀ cid info, (cid, info) ∈ children → info.status ≠ .failed →
      t cid = true → 2 ≤ info.failed_checks + 1 →
      (cid, (⟨info.gen + 1, .starting, 0⟩ : ChildInfo))
        ∈ (healthCheckIteration restart_map children t).1 ∧
      (healthCheckChild restart_map cid info (t cid)).2
        = [.ping cid info.gen, .stopOld cid info.gen,
           .spawn cid (restart_map cid) (info.gen + 1)]) ∧
    (∀ cid info, (cid, info) ∈ children → info.status ≠ .failed →
      t cid = false →
      (cid, { info with status := .healthy, failed_checks := 0 })
        ∈ (healthCheckIteration restart_map children t).1) := by
  refine ⟨?_, ?_, ?_, ?_⟩
  · intro cid info hmem hnf
    refine List.mem_bind.mpr ⟨(cid, info), hmem, ?_⟩
    unfold healthCheckChild
    rw [if_neg hnf]
    rcases ht : t cid with - | -
    · simp
    · by_cases h2 : 2 ≤ info.failed_checks + 1 <;> simp [h2]
  · intro cid info hmem hnf ht hlt
    refine List.mem_map.mpr ⟨(cid, info), hmem, ?_⟩
    unfold healthCheckChild
    rw [if_neg hnf, ht]
    simp [Nat.not_le.mpr hlt]
  · intro cid info hmem hnf ht h2
    constructor
    · refine List.mem_map.mpr ⟨(cid, info), hmem, ?_⟩
      unfold healthCheckChild
      rw [if_neg hnf, ht]
      simp [h2]
    · unfold healthCheckChild
      rw [if_neg hnf, ht]
      simp [h2]
  · intro cid info hmem hnf ht
    refine List.mem_map.mpr ⟨(cid, info), hmem, ?_⟩
    unfold healthCheckChild
    rw [if_neg hnf, ht]
    simp

/-- C4, witness for `supervisor_health_spec`: a single monitored healthy
child `"c"` with one prior failed check times out again; the pass restarts
it — same id `"c"`, fresh generation, recipe from the restart map — with
the action sequence ping, stop, spawn. -/
theorem supervisor_health_spec_witness :
    ("c", (⟨1, ChildStatus.starting, 0⟩ : ChildInfo))
      ∈ (healthCheckIteration (fun _ => (42 : Nat))
          [("c", ⟨0, ChildStatus.healthy, 1⟩)] (fun _ => true)).1 ∧
    (healthCheckChild (fun _ => (42 : Nat)) "c" ⟨0, ChildStatus.healthy, 1⟩
        ((fun _ => true) "c"))
      = (⟨1, ChildStatus.starting, 0⟩,
         [SupEvent.ping "c" 0, SupEvent.stopOld "c" 0, SupEvent.spawn "c" 42 1]) := by
  have h := (supervisor_health_spec (fun _ => (42 : Nat))
      [("c", ⟨0, ChildStatus.healthy, 1⟩)] (fun _ => true)).2.2.1
      "c" ⟨0, ChildStatus.healthy, 1⟩ (List.mem_singleton.mpr rfl)
      (by decide) rfl (by decide)
  exact ⟨h.1, by rw [Prod.ext_iff]; exact ⟨rfl, h.2⟩⟩

/-!
## Actor teardown paths (`src/actor/actor_system.py`)

`_run_actor` processes one mailbox message at a time: a `Shutdown` message
breaks the loop before the receive middleware and the behavior run, and
nothing else happens on that path — in particular `post_stop` is not called
and the `_actors`/`_mailboxes`/`_tasks` registries keep their entries.
`_stop_actor` (reached via `stop()`/`shutdown()`) cancels the task, awaits
it, calls `post_stop`, and deletes the three registry entries (children
teardown is omitted here: the modelled actor has no children). -/

/-- Registry state of an `ActorSystem`, plus whether each actor's
mailbox-processing loop is still running. -/
structure ASState where
  actors : String → Option Unit
  mailboxes : String → Option Unit
  tasks : String → Option Unit
  loopRunning : String → Bool

/-- Observable lifecycle actions. -/
inductive ASEvent where
  | postStop (id : String)
  | behaviorInvoked (id : String)
deriving DecidableEq, Repr

/-- A message as seen by `_run_actor`'s `isinstance(msg, Shutdown)` test. -/
inductive ActorMsg where
  | shutdown
  | other
deriving DecidableEq, Repr

/-- One iteration of `_run_actor`'s loop for actor `id`: `Shutdown` breaks
the loop; any other message reaches the behavior. -/
def runActorStep (s : ASState) (id : String) (m : ActorMsg) :
    ASState × List ASEvent :=
  match m with
  | .shutdown =>
      ({ s with loopRunning := fun i => if i = id then false else s.loopRunning i },
        [])
  | .other => (s, [.behaviorInvoked id])

/-- `_stop_actor` for a childless actor `id`: cancel the task (the loop
stops), run `post_stop`, and delete the three registry entries. -/
def stopActor (s : ASState) (id : String) : ASState × List ASEvent :=
  ({ s with
      actors := fun i => if i = id then none else s.actors i
      mailboxes := fun i => if i = id then none else s.mailboxes i
      tasks := fun i => if i = id then none else s.tasks i
      loopRunning := fun i => if i = id then false else s.loopRunning i },
   [.postStop id])

/-- C10: delivering `Shutdown` terminates the actor's mailbox loop without
invoking the behavior and leaves the system state otherwise unchanged — no
`post_stop`, and the `_actors`/`_mailboxes`/`_tasks` registries keep all
their entries; any other message invokes the behavior; only `stopActor`
emits `post_stop` and removes the three registry entries (for the stopped
actor only). -/
theorem actor_shutdown_frame (s : ASState) (id : String) :
    ((runActorStep s id .shutdown).1.actors = s.actors ∧
     (runActorStep s id .shutdown).1.mailboxes = s.mailboxes ∧
     (runActorStep s id .shutdown).1.tasks = s.tasks ∧
     (runActorStep s id .shutdown).2 = [] ∧
     (runActorStep s id .shutdown).1.loopRunning id = false ∧
     (∀ j, j ≠ id →
       (runActorStep s id .shutdown).1.loopRunning j = s.loopRunning j)) ∧
    ((runActorStep s id .other).2 = [.behaviorInvoked id] ∧
     (runActorStep s id .other).1.actors = s.actors ∧
     (runActorStep s id .other).1.mailboxes = s.mailboxes ∧
     (runActorStep s id .other).1.tasks = s.tasks) ∧
    ((stopActor s id).2 = [.postStop id] ∧
     (stopActor s id).1.actors id = none ∧
     (stopActor s id).1.mailboxes id = none ∧
     (stopActor s id).1.tasks id = none ∧
     (stopActor s id).1.loopRunning id = false ∧
     (∀ j, j ≠ id →
       (stopActor s id).1.actors j = s.actors j ∧
       (stopActor s id).1.mailboxes j = s.mailboxes j ∧
       (stopActor s id).1.tasks j = s.tasks j)) := by
  refine ⟨⟨rfl, rfl, rfl, rfl, by simp [runActorStep], ?_⟩,
    ⟨rfl, rfl, rfl, rfl⟩, ⟨rfl, by simp [stopActor], by simp [stopActor],
      by simp [stopActor], by simp [stopActor], ?_⟩⟩
  · intro j hj
    simp [runActorStep, hj]
  · intro j hj
    exact ⟨by simp [stopActor, hj], by simp [stopActor, hj],
      by simp [stopActor, hj]⟩

/-- Concrete registry state for the C10 witness: every id registered and
running. -/
def asExampleState : ASState :=
  ⟨fun _ => some (), fun _ => some (), fun _ => some (), fun _ => true⟩

/-- C10, witness for `actor_shutdown_frame` at a concrete state: shutting
down `"a"` leaves all registries intact and emits nothing, while
`stopActor` emits `post_stop` and clears `"a"`'s entries. -/
theorem actor_shutdown_frame_witness :
    (runActorStep asExampleState "a" .shutdown).1.actors = asExampleState.actors ∧
    (runActorStep asExampleState "a" .shutdown).2 = [] ∧
    (stopActor asExampleState "a").2 = [.postStop "a"] ∧
    (stopActor asExampleState "a").1.actors "a" = none :=
  ⟨(actor_shutdown_frame asExampleState "a").1.1,
   (actor_shutdown_frame asExampleState "a").1.2.2.2.1,
   (actor_shutdown_frame asExampleState "a").2.2.1,
   (actor_shutdown_frame asExampleState "a").2.2.2.1⟩

end FL


